import Mathlib

/-!
Verification of the Claude-Code/Telegram bridge (Node.js + WezTerm).

The development shallowly embeds the bridge's core functions over `List Char`
(JS strings as character lists):

* the Markup Converter `markdownToTelegramHtml` (bridge variant, the one with
  `<<<CODEBLOCK_i_>>>` placeholders),
* the Completion Extractor `extractLastAssistantMessage`,
* the Pane Registry / Command Router / webhook and hook handlers as explicit
  state-passing functions with an effect trace.

JS regex/`String.prototype.replace` semantics are reproduced: global regex
replacement scans left to right retrying at each character; `replace` with a
string pattern replaces the first occurrence only and processes replacement
patterns in the replacement string.
Scanners that jump over a matched region are written with an explicit fuel
argument (`input length + 1` suffices, since every step consumes at least one
character), keeping every definition structurally recursive and kernel-evaluable.
-/

namespace TgBridge

/-- The backtick character (written via its code point). -/
def bq : Char := Char.ofNat 96

/-- The single-quote character (used by JS `$'` replacement patterns). -/
def sq : Char := Char.ofNat 39

/-- JS `\w` word characters: ASCII letters, digits, underscore. -/
def isWordChar (c : Char) : Bool := c.isAlphanum || c = '_'

/-- Whitespace characters recognised by JS `String.prototype.trim` (ASCII part). -/
def isJsSpace (c : Char) : Bool :=
  c = ' ' || c = '\t' || c = '\n' || c = '\r' || c = Char.ofNat 11 || c = Char.ofNat 12

/-- JS `String.prototype.trim`. -/
def jsTrim (s : List Char) : List Char :=
  ((s.dropWhile isJsSpace).reverse.dropWhile isJsSpace).reverse

/-- JS line terminators, the characters `.` does not match in a regex. -/
def isLineTerm (c : Char) : Bool :=
  c = '\n' || c = '\r' || c = Char.ofNat 8232 || c = Char.ofNat 8233

/-- Split a list at the first occurrence of `pat`, returning the part before
and the part after the occurrence (`none` when `pat` does not occur).
This is the search step of JS `String.prototype.replace` with a string
pattern, and the "earliest match" search of a lazy regex quantifier. -/
def splitFirst (pat : List Char) : List Char → Option (List Char × List Char)
  | [] => if pat.isEmpty then some ([], []) else none
  | c :: rest =>
    if pat.isPrefixOf (c :: rest) then some ([], (c :: rest).drop pat.length)
    else
      match splitFirst pat rest with
      | some (pre, post) => some (c :: pre, post)
      | none => none

/-- Whether `pat` occurs as a contiguous substring. -/
def containsSub (pat s : List Char) : Bool := (splitFirst pat s).isSome

/-- Global single-character replacement, i.e. JS `str.replace(/c/g, rep)`
for a one-character pattern. -/
def replaceAllChar (c : Char) (rep : List Char) (s : List Char) : List Char :=
  s.flatMap (fun x => if x = c then rep else [x])

/-- `escapeHtml` from the bridge: three sequential global replacements,
`&` then `<` then `>`. -/
def escapeHtml (s : List Char) : List Char :=
  replaceAllChar '>' "&gt;".data
    (replaceAllChar '<' "&lt;".data
      (replaceAllChar '&' "&amp;".data s))

/-- Decimal digits of a `Nat` (fuelled; `n + 1` steps always suffice).
Models JS template interpolation of the placeholder index. -/
def natDigitsF : Nat → Nat → List Char
  | 0, _ => []
  | f + 1, n => if n < 10 then [Nat.digitChar n]
      else natDigitsF f (n / 10) ++ [Nat.digitChar (n % 10)]

/-- Decimal representation of a placeholder index. -/
def natDigits (n : Nat) : List Char := natDigitsF (n + 1) n

/-- The code-block placeholder `<<<CODEBLOCK${i}>>>` inserted by the converter. -/
def cbPH (i : Nat) : List Char := "<<<CODEBLOCK".data ++ natDigits i ++ ">>>".data

/-- The inline-code placeholder `<<<INLINECODE${i}>>>`. -/
def icPH (i : Nat) : List Char := "<<<INLINECODE".data ++ natDigits i ++ ">>>".data

/-- The HTML-escaped code-block placeholder the restore step searches for,
hard-coded in the source as `&lt;&lt;&lt;CODEBLOCK${index}&gt;&gt;&gt;`. -/
def escCbPH (i : Nat) : List Char :=
  "&lt;&lt;&lt;CODEBLOCK".data ++ natDigits i ++ "&gt;&gt;&gt;".data

/-- The HTML-escaped inline-code placeholder. -/
def escIcPH (i : Nat) : List Char :=
  "&lt;&lt;&lt;INLINECODE".data ++ natDigits i ++ "&gt;&gt;&gt;".data

/-- Attempt to match the fenced-code-block regex ```` /```(\w*)\n?([\s\S]*?)```/ ````
at the head of `s`.  On success returns the captured code (the language tag is
discarded, as in the source) and the remainder after the closing fence.
The greedy `\w*` takes the maximal run of word characters, `\n?` takes one
newline if present, and the lazy `([\s\S]*?)` runs to the earliest closing
fence. -/
def tryCodeBlockMatch (s : List Char) : Option (List Char × List Char) :=
  match s with
  | c1 :: c2 :: c3 :: t =>
    if c1 = bq ∧ c2 = bq ∧ c3 = bq then
      let t1 := t.dropWhile isWordChar
      let t2 := match t1 with
        | c :: r => if c = '\n' then r else t1
        | [] => t1
      splitFirst [bq, bq, bq] t2
    else none
  | _ => none

/-- One extracted code block, wrapped and escaped as the source does:
`<pre><code>${escapeHtml(code.trim())}</code></pre>`. -/
def wrapCodeBlock (code : List Char) : List Char :=
  "<pre><code>".data ++ escapeHtml (jsTrim code) ++ "</code></pre>".data

/-- Global scan replacing fenced code blocks by placeholders (fuelled).
Mirrors `result.replace(/```(\w*)\n?([\s\S]*?)```/g, cb)`: at each position
try to match; on a match emit the placeholder, record the wrapped block and
continue after the match, otherwise copy one character. -/
def scanCodeBlocksF : Nat → Nat → List Char → List Char × List (List Char)
  | 0, _, s => (s, [])
  | _ + 1, _, [] => ([], [])
  | f + 1, idx, c :: rest =>
    match tryCodeBlockMatch (c :: rest) with
    | some (code, after) =>
      (cbPH idx ++ (scanCodeBlocksF f (idx + 1) after).1,
       wrapCodeBlock code :: (scanCodeBlocksF f (idx + 1) after).2)
    | none =>
      (c :: (scanCodeBlocksF f idx rest).1, (scanCodeBlocksF f idx rest).2)

/-- Extract fenced code blocks (entry point, fuel = length + 1). -/
def scanCodeBlocks (s : List Char) : List Char × List (List Char) :=
  scanCodeBlocksF (s.length + 1) 0 s

/-- Attempt to match the inline-code regex `` /`([^`]+)`/ `` at the head of `s`. -/
def tryInlineMatch (s : List Char) : Option (List Char × List Char) :=
  match s with
  | c :: t =>
    if c = bq then
      let content := t.takeWhile (fun x => ¬ x = bq)
      if content.isEmpty then none
      else
        match t.drop content.length with
        | c2 :: after => if c2 = bq then some (content, after) else none
        | [] => none
    else none
  | [] => none

/-- One extracted inline code span: `<code>${escapeHtml(code)}</code>`. -/
def wrapInlineCode (code : List Char) : List Char :=
  "<code>".data ++ escapeHtml code ++ "</code>".data

/-- Global scan replacing inline code spans by placeholders (fuelled). -/
def scanInlineF : Nat → Nat → List Char → List Char × List (List Char)
  | 0, _, s => (s, [])
  | _ + 1, _, [] => ([], [])
  | f + 1, idx, c :: rest =>
    match tryInlineMatch (c :: rest) with
    | some (code, after) =>
      (icPH idx ++ (scanInlineF f (idx + 1) after).1,
       wrapInlineCode code :: (scanInlineF f (idx + 1) after).2)
    | none =>
      (c :: (scanInlineF f idx rest).1, (scanInlineF f idx rest).2)

/-- Extract inline code spans (entry point). -/
def scanInline (s : List Char) : List Char × List (List Char) :=
  scanInlineF (s.length + 1) 0 s

/-- The lazy body search of `/(d)(.+?)(d)/`: consume a minimal nonempty run of
non-line-terminator characters followed by the closing delimiter; return the
run and the remainder after the closing delimiter. -/
def lazyFind (delim : List Char) : List Char → Option (List Char × List Char)
  | [] => none
  | c :: rest =>
    if isLineTerm c then none
    else if delim.isPrefixOf rest then some ([c], rest.drop delim.length)
    else
      match lazyFind delim rest with
      | some (t, after) => some (c :: t, after)
      | none => none

/-- Attempt to match a paired-delimiter emphasis regex at the head of `s`. -/
def tryPaired (delim : List Char) (s : List Char) : Option (List Char × List Char) :=
  if delim.isPrefixOf s then lazyFind delim (s.drop delim.length) else none

/-- One global emphasis pass (fuelled): JS
`result.replace(/delim(.+?)delim/g, openT + '$1' + closeT)`. -/
def emphPassF (delim openT closeT : List Char) : Nat → List Char → List Char
  | 0, s => s
  | _ + 1, [] => []
  | f + 1, c :: rest =>
    match tryPaired delim (c :: rest) with
    | some (t, after) => openT ++ t ++ closeT ++ emphPassF delim openT closeT f after
    | none => c :: emphPassF delim openT closeT f rest

/-- One global emphasis pass (entry point). -/
def emphPass (delim openT closeT s : List Char) : List Char :=
  emphPassF delim openT closeT (s.length + 1) s

/-- JS replacement-pattern expansion (`GetSubstitution`) for a string search
pattern: `$$` inserts `$`, `$&` the matched text, ``$` `` the part of the
target before the match, `$'` the part after; anything else is literal. -/
def expandDollar (matched pre post : List Char) : List Char → List Char
  | [] => []
  | [c] => [c]
  | c :: c2 :: r =>
    if c = '$' then
      if c2 = '$' then '$' :: expandDollar matched pre post r
      else if c2 = '&' then matched ++ expandDollar matched pre post r
      else if c2 = bq then pre ++ expandDollar matched pre post r
      else if c2 = sq then post ++ expandDollar matched pre post r
      else c :: expandDollar matched pre post (c2 :: r)
    else c :: expandDollar matched pre post (c2 :: r)

/-- JS `target.replace(pat, rep)` with a *string* pattern: replace the first
occurrence only, processing `$`-patterns in the replacement string. -/
def jsReplaceFirst (pat rep s : List Char) : List Char :=
  match splitFirst pat s with
  | none => s
  | some (pre, post) => pre ++ expandDollar pat pre post rep ++ post

/-- The restore loop `xs.forEach((x, i) => result = result.replace(ph(i), x))`. -/
def restoreList (ph : Nat → List Char) : Nat → List (List Char) → List Char → List Char
  | _, [], s => s
  | i, b :: bs, s => restoreList ph (i + 1) bs (jsReplaceFirst (ph i) b s)

/-- The Markup Converter `markdownToTelegramHtml` of the bridge:
extract fenced code blocks, extract inline code, HTML-escape the remainder,
apply bold / italic / underline / strikethrough, then restore the
(escaped) placeholders by first-occurrence string replacement. -/
def markdownToTelegramHtml (text : List Char) : List Char :=
  let p1 := scanCodeBlocks text
  let p2 := scanInline p1.1
  let t3 := escapeHtml p2.1
  let t4 := emphPass "**".data "<b>".data "</b>".data t3
  let t5 := emphPass "*".data "<i>".data "</i>".data t4
  let t6 := emphPass "__".data "<u>".data "</u>".data t5
  let t7 := emphPass "~~".data "<s>".data "</s>".data t6
  let t8 := restoreList escCbPH 0 p1.2 t7
  restoreList escIcPH 0 p2.2 t8

/-! ## Completion Extractor

`extractLastAssistantMessage` reads a line-delimited transcript, JSON-parses
each line and scans from the end.  The JSON parsing itself is external
(`JSON.parse`); the embedding takes the per-line parse results as input:
`none` stands for a malformed line (skipped by the `catch`), `some r` for a
parsed record with its `type` field and optional `message.content`. -/

/-- One content block of an assistant message (`{type, text}`). -/
structure CBlock where
  btype : List Char
  btext : List Char
deriving DecidableEq

/-- The `message.content` field: a single string, an array of typed blocks,
or anything else (absent / other JSON value). -/
inductive MsgContent where
  | cstr (s : List Char)
  | cblocks (bs : List CBlock)
  | cother
deriving DecidableEq

/-- One parsed transcript record: its `type` field and, when the `message`
field is a truthy object, its `content`. -/
structure TRecord where
  rtype : List Char
  message : Option MsgContent
deriving DecidableEq

/-- The `textParts` collected from a record's content: blocks whose `type` is
`"text"` with truthy (nonempty) `text`; or the content itself when it is a
string (even the empty string — JS `typeof '' === 'string'` pushes it). -/
def textPartsOf : Option MsgContent → List (List Char)
  | some (MsgContent.cblocks bs) =>
    (bs.filter (fun b => b.btype = "text".data ∧ ¬ b.btext.isEmpty)).map CBlock.btext
  | some (MsgContent.cstr s) => [s]
  | _ => []

/-- `textParts.join('\n')`. -/
def joinNL : List (List Char) → List Char
  | [] => []
  | [p] => p
  | p :: ps => p ++ '\n' :: joinNL ps

/-- The backward scan of `extractLastAssistantMessage` (argument already
reversed): return the joined text parts of the first record with
`type === 'assistant'`, a truthy `message`, and a nonempty `textParts`;
otherwise keep scanning. -/
def extractRevScan : List (Option TRecord) → Option (List Char)
  | [] => none
  | none :: rest => extractRevScan rest
  | some r :: rest =>
    if r.rtype = "assistant".data ∧ r.message.isSome then
      let parts := textPartsOf r.message
      if parts.isEmpty then extractRevScan rest else some (joinNL parts)
    else extractRevScan rest

/-- `extractLastAssistantMessage` over the parsed transcript lines
(in file order; the loop runs from the last line backwards). -/
def extractLastAssistantMessage (lines : List (Option TRecord)) : Option (List Char) :=
  extractRevScan lines.reverse

/-- Modelled from the spec's words (§4.4), for comparison: "scan from the end;
return the first record whose declared role is assistant; from that record's
content … concatenate all blocks whose type is 'text', newline-joined.
Absence of any qualifying record yields no message." -/
def specExtractLastAssistantMessage (lines : List (Option TRecord)) : Option (List Char) :=
  match (lines.reverse.filterMap id).find? (fun r => r.rtype = "assistant".data) with
  | none => none
  | some r =>
    match r.message with
    | some (MsgContent.cblocks bs) =>
      some (joinNL ((bs.filter (fun b => b.btype = "text".data)).map CBlock.btext))
    | some (MsgContent.cstr s) => some s
    | _ => some (joinNL [])

/-! ## Bridge state machine

The bridge's mutable state (in-memory selections, persisted flat files) is an
explicit record; handlers are state-passing functions that also emit a trace
of outbound effects (Telegram API calls and `wezterm cli` invocations).
External collaborators appear as parameters: the pane listing returned by
`wezterm cli list` during the request, and oracles for the success of the
shell-outs and outbound sends.  Replies sent with `sendMessage` are modelled
by a constructor per message template, carrying the interpolated data. -/

/-- One WezTerm pane as returned by `wezterm cli list --format json`
(`pane_id` is compared after `String(...)` coercion, so it is a string here). -/
structure Pane where
  pane_id : List Char
  title : List Char
deriving DecidableEq

/-- Startup configuration: the parsed `ALLOWED_CHAT_IDS` allow-list and the
optional `WEZTERM_PANE_ID` environment override. -/
structure Config where
  allowedChatIds : List (List Char)
  weztermPaneIdEnv : Option (List Char)

/-- The bridge's mutable state: the in-memory selected pane, the persisted
pane-id / chat-id / pending-marker files, the in-memory mute flag, and the
typing-indicator interval (the chat it ticks for, `none` when stopped). -/
structure BridgeState where
  selectedPaneId : Option (List Char)
  paneIdFile : Option (List Char)
  chatIdFile : Option (List Char)
  pendingFile : Option Nat
  isMuted : Bool
  typing : Option (List Char)
deriving DecidableEq

/-- Errors thrown by the Terminal Dispatcher (the `Error` messages of
`weztermSendText`). -/
inductive DispatchErr where
  | weztermNotRunning
  | noPaneSelected
  | paneGone (pid : List Char)
  | execFailed (msg : List Char)
deriving DecidableEq

/-- Message templates sent back to the chat, each carrying its interpolated
data (the concrete wording lives in the source's string literals). -/
inductive Reply where
  | helpText
  | noPanes
  | panesList (panes : List Pane) (current : Option (List Char))
  | setpaneUsage
  | paneNotFound (pid : List Char)
  | paneSet (pid title : List Char)
  | statusReady (pid title : List Char) (muted : Bool) (paneCount : Nat)
  | statusNoPane (muted : Bool) (paneCount : Nat)
  | mutedOn
  | mutedOff
  | refreshed
  | stopSent
  | stopFailed
  | cleared
  | noPaneSelected
  | resuming
  | resumingSession (sid : List Char)
  | blockedCommand (cmd : List Char)
  | unknownCommand (cmd : List Char)
  | notAuthorized (chatId : List Char)
  | guidanceNoPane
  | blockedText
  | errorReply (e : DispatchErr)
deriving DecidableEq

/-- Outbound effects: Telegram API calls and `wezterm cli` shell-outs. -/
inductive Effect where
  | sendMessage (chatId : List Char) (r : Reply)
  | sendHtmlMessage (chatId : List Char) (html : List Char)
  | sendPlainMessage (chatId : List Char) (text : List Char)
  | sendChatAction (chatId : List Char)
  | answerCallback (cbId : List Char) (unauthorizedAlert : Bool)
  | setMyCommands
  | termSendText (pid text : List Char)
  | termSendEnter (pid : List Char)
  | termSendEscape (pid : List Char)
deriving DecidableEq

/-- `isAuthorized`: an empty allow-list rejects everyone; otherwise membership. -/
def isAuthorized (cfg : Config) (chatId : List Char) : Bool :=
  if cfg.allowedChatIds.isEmpty then false else cfg.allowedChatIds.contains chatId

/-- `paneExists`: `panes.some(p => String(p.pane_id) === String(paneId))`. -/
def paneExists (panes : List Pane) (pid : List Char) : Bool :=
  panes.any (fun p => p.pane_id = pid)

/-- `findClaudePaneId`: use the selected pane after re-validating it against
the fresh listing, clearing the selection (memory and file) when stale;
fall back to the environment override; otherwise `none`. -/
def findClaudePaneId (cfg : Config) (panes : List Pane) (st : BridgeState) :
    Option (List Char) × BridgeState :=
  match st.selectedPaneId with
  | some pid =>
    if paneExists panes pid then (some pid, st)
    else
      let st' := { st with selectedPaneId := none, paneIdFile := none }
      (cfg.weztermPaneIdEnv, st')
  | none => (cfg.weztermPaneIdEnv, st)

/-- `BLOCKED_COMMANDS`. -/
def blockedCommands : List (List Char) :=
  ["/mcp".data, "/help".data, "/config".data, "/settings".data, "/model".data,
   "/vim".data, "/terminal-setup".data]

/-- JS `String.prototype.toLowerCase` (ASCII). -/
def toLowerL (s : List Char) : List Char := s.map Char.toLower

/-- `BLOCKED_COMMANDS.some(cmd => s.startsWith(cmd))`. -/
def startsWithBlocked (s : List Char) : Bool :=
  blockedCommands.any (fun c => c.isPrefixOf s)

/-- Pane title with the `|| '(untitled)'` fallback for a falsy title. -/
def paneTitleOf (panes : List Pane) (pid : List Char) : List Char :=
  match panes.find? (fun p => p.pane_id = pid) with
  | some p => if p.title.isEmpty then "(untitled)".data else p.title
  | none => "(untitled)".data

/-- `weztermSendText` (bridge variant with fresh validation): empty listing
clears the selection and throws; unresolved pane throws; a pane missing from
the fresh listing clears the selection and throws; otherwise the text shell-out
and the carriage-return shell-out run (`execErr` is the outcome of the
shell-out: `some msg` when it throws). -/
def weztermSendText (cfg : Config) (panes : List Pane) (execErr : Option (List Char))
    (text : List Char) (st : BridgeState) :
    BridgeState × List Effect × Option DispatchErr :=
  if panes.isEmpty then
    ({ st with selectedPaneId := none, paneIdFile := none }, [],
      some DispatchErr.weztermNotRunning)
  else
    match findClaudePaneId cfg panes st with
    | (none, st) => (st, [], some DispatchErr.noPaneSelected)
    | (some pid, st) =>
      if ¬ paneExists panes pid then
        ({ st with selectedPaneId := none, paneIdFile := none }, [],
          some (DispatchErr.paneGone pid))
      else
        match execErr with
        | none => (st, [Effect.termSendText pid text, Effect.termSendEnter pid], none)
        | some m => (st, [Effect.termSendText pid text], some (DispatchErr.execFailed m))

/-- `weztermSendEscape`: resolve the pane (possibly clearing a stale
selection); best-effort escape keystroke, returning a success boolean. -/
def weztermSendEscape (cfg : Config) (panes : List Pane) (escOk : Bool)
    (st : BridgeState) : Bool × BridgeState × List Effect :=
  match findClaudePaneId cfg panes st with
  | (none, st) => (false, st, [])
  | (some pid, st) => (escOk, st, [Effect.termSendEscape pid])

/-- `handleCommand` of the bridge (the variant with authorization and mute).
Returns the new state, the emitted effects, and `some e` when an exception
from `weztermSendText` propagates out of the handler. -/
def handleCommand (cfg : Config) (panes : List Pane) (execErr : Option (List Char))
    (escOk : Bool) (chatId command args : List Char) (st : BridgeState) :
    BridgeState × List Effect × Option DispatchErr :=
  let st := { st with chatIdFile := some chatId }
  if command = "/start".data ∨ command = "/help".data then
    (st, [Effect.sendMessage chatId Reply.helpText], none)
  else if command = "/panes".data then
    if panes.isEmpty then (st, [Effect.sendMessage chatId Reply.noPanes], none)
    else
      match findClaudePaneId cfg panes st with
      | (cur, st) => (st, [Effect.sendMessage chatId (Reply.panesList panes cur)], none)
  else if command = "/setpane".data then
    if (jsTrim args).isEmpty then
      (st, [Effect.sendMessage chatId Reply.setpaneUsage], none)
    else
      let pid := jsTrim args
      if ¬ panes.any (fun p => p.pane_id = pid) then
        (st, [Effect.sendMessage chatId (Reply.paneNotFound pid)], none)
      else
        ({ st with selectedPaneId := some pid, paneIdFile := some pid },
          [Effect.sendMessage chatId (Reply.paneSet pid (paneTitleOf panes pid))], none)
  else if command = "/status".data then
    match findClaudePaneId cfg panes st with
    | (some pid, st) =>
      (st, [Effect.sendMessage chatId
        (Reply.statusReady pid (paneTitleOf panes pid) st.isMuted panes.length)], none)
    | (none, st) =>
      (st, [Effect.sendMessage chatId (Reply.statusNoPane st.isMuted panes.length)], none)
  else if command = "/mute".data then
    ({ st with isMuted := true }, [Effect.sendMessage chatId Reply.mutedOn], none)
  else if command = "/unmute".data then
    ({ st with isMuted := false }, [Effect.sendMessage chatId Reply.mutedOff], none)
  else if command = "/refresh".data then
    (st, [Effect.setMyCommands, Effect.sendMessage chatId Reply.refreshed], none)
  else if command = "/stop".data then
    match weztermSendEscape cfg panes escOk st with
    | (ok, st, evs) =>
      ({ st with typing := none },
        evs ++ [Effect.sendMessage chatId (if ok then Reply.stopSent else Reply.stopFailed)],
        none)
  else if command = "/clear".data then
    match findClaudePaneId cfg panes st with
    | (some _, st) =>
      match weztermSendText cfg panes execErr "/clear".data st with
      | (st, evs, none) => (st, evs ++ [Effect.sendMessage chatId Reply.cleared], none)
      | (st, evs, some e) => (st, evs, some e)
    | (none, st) => (st, [Effect.sendMessage chatId Reply.noPaneSelected], none)
  else if command = "/resume".data then
    match findClaudePaneId cfg panes st with
    | (some _, st) =>
      match weztermSendText cfg panes execErr "/resume".data st with
      | (st, evs, none) => (st, evs ++ [Effect.sendMessage chatId Reply.resuming], none)
      | (st, evs, some e) => (st, evs, some e)
    | (none, st) => (st, [Effect.sendMessage chatId Reply.noPaneSelected], none)
  else
    if blockedCommands.any (fun c => c.isPrefixOf command) then
      (st, [Effect.sendMessage chatId (Reply.blockedCommand command)], none)
    else
      (st, [Effect.sendMessage chatId (Reply.unknownCommand command)], none)

/-- `handleMessage` of the bridge variant with authorization/mute (no pending
marker in this variant): guidance when no pane resolves, denylist check,
typing loop, dispatch; dispatch failures are caught, stopping the typing loop
and reporting the error. -/
def handleMessage (cfg : Config) (panes : List Pane) (execErr : Option (List Char))
    (chatId text : List Char) (st : BridgeState) : BridgeState × List Effect :=
  let st := { st with chatIdFile := some chatId }
  match findClaudePaneId cfg panes st with
  | (none, st) => (st, [Effect.sendMessage chatId Reply.guidanceNoPane])
  | (some _, st) =>
    if startsWithBlocked (toLowerL text) then
      (st, [Effect.sendMessage chatId Reply.blockedText])
    else
      let st := { st with typing := some chatId }
      match weztermSendText cfg panes execErr text st with
      | (st, evs, none) => (st, Effect.sendChatAction chatId :: evs)
      | (st, evs, some e) =>
        ({ st with typing := none },
          Effect.sendChatAction chatId :: evs ++
            [Effect.sendMessage chatId (Reply.errorReply e)])

/-- `weztermSendText` of the earlier `src/bridge.js` variant (no fresh-listing
re-check, but used with the pending marker): resolve the pane, throw
`NoPaneSelected` when unresolved, then the two shell-outs. -/
def weztermSendTextV1 (cfg : Config) (panes : List Pane) (execErr : Option (List Char))
    (text : List Char) (st : BridgeState) :
    BridgeState × List Effect × Option DispatchErr :=
  match findClaudePaneId cfg panes st with
  | (none, st) => (st, [], some DispatchErr.noPaneSelected)
  | (some pid, st) =>
    match execErr with
    | none => (st, [Effect.termSendText pid text, Effect.termSendEnter pid], none)
    | some m => (st, [Effect.termSendText pid text], some (DispatchErr.execFailed m))

/-- `handleMessage` of `src/bridge.js`, the variant with the Pending Marker
(`now` is `Date.now()` written into the pending file): mark pending, start the
typing loop, dispatch; a dispatch failure stops the typing loop, clears the
pending marker and reports the error text to the chat. -/
def handleMessageV1 (cfg : Config) (panes : List Pane) (execErr : Option (List Char))
    (now : Nat) (chatId text : List Char) (st : BridgeState) : BridgeState × List Effect :=
  let st := { st with chatIdFile := some chatId }
  match findClaudePaneId cfg panes st with
  | (none, st) => (st, [Effect.sendMessage chatId Reply.guidanceNoPane])
  | (some _, st) =>
    if startsWithBlocked (toLowerL text) then
      (st, [Effect.sendMessage chatId Reply.blockedText])
    else
      let st := { st with pendingFile := some now }
      let st := { st with typing := some chatId }
      match weztermSendTextV1 cfg panes execErr text st with
      | (st, evs, none) => (st, Effect.sendChatAction chatId :: evs)
      | (st, evs, some e) =>
        ({ st with typing := none, pendingFile := none },
          Effect.sendChatAction chatId :: evs ++
            [Effect.sendMessage chatId (Reply.errorReply e)])

/-! ## Hook endpoint and webhook -/

/-- The parsed body of a `/hook` POST (`{message, cwd, sessionId}`). -/
structure HookBody where
  message : Option (List Char)
  cwd : Option (List Char)
  sessionId : Option (List Char)

/-- The HTTP response of the hook endpoint. -/
inductive HookResp where
  | parseFailed
  | okMuted
  | errNoChat
  | okEmpty
  | okSent
  | errSendFailed
deriving DecidableEq

/-- The source-info header prepended before the converted message:
`<code>📁 cwd</code>\n<code>🔖 sessionId</code>\n\n` with fallbacks. -/
def hookHeader (cwd sessionId : Option (List Char)) : List Char :=
  "<code>📁 ".data ++ (match cwd with | some c => if c.isEmpty then "未知目录".data else c | none => "未知目录".data) ++
  "</code>\n<code>🔖 ".data ++ (match sessionId with | some s => if s.isEmpty then "未知会话".data else s | none => "未知会话".data) ++
  "</code>\n\n".data

/-- `handleHookRequest`: parse the body (`none` = `JSON.parse` threw → 500),
stop the typing loop, honour the mute flag, require a stored chat id, skip an
absent/empty message, otherwise convert and send with the one-shot plain-text
fallback (`htmlOk` / `plainOk` are the outcomes of the two send attempts). -/
def handleHookRequest (htmlOk plainOk : Bool) (body : Option HookBody)
    (st : BridgeState) : BridgeState × List Effect × HookResp :=
  match body with
  | none => (st, [], HookResp.parseFailed)
  | some b =>
    let st := { st with typing := none }
    if st.isMuted then (st, [], HookResp.okMuted)
    else
      match st.chatIdFile with
      | none => (st, [], HookResp.errNoChat)
      | some chat =>
        match b.message with
        | none => (st, [], HookResp.okEmpty)
        | some m =>
          if m.isEmpty then (st, [], HookResp.okEmpty)
          else
            let html := hookHeader b.cwd b.sessionId ++ markdownToTelegramHtml m
            if htmlOk then (st, [Effect.sendHtmlMessage chat html], HookResp.okSent)
            else if plainOk then
              (st, [Effect.sendHtmlMessage chat html, Effect.sendPlainMessage chat html],
               HookResp.okSent)
            else
              (st, [Effect.sendHtmlMessage chat html, Effect.sendPlainMessage chat html],
               HookResp.errSendFailed)

/-- A parsed Telegram update envelope: an optional `message` (chat id, text —
the text defaulting to `''`) and an optional `callback_query`
(chat id, data, callback id). -/
structure TgUpdate where
  message : Option (List Char × List Char)
  callback : Option (List Char × List Char × List Char)

/-- The webhook HTTP response. -/
inductive WebhookResp where
  | ok200
  | err500
deriving DecidableEq

/-- `text.split(' ')` decomposed as (first word, rest re-joined by spaces);
`args.join(' ')` of the tail restores exactly the text after the first space. -/
def splitCmd (text : List Char) : List Char × List Char :=
  match splitFirst [' '] text with
  | some (pre, post) => (pre, post)
  | none => (text, [])

/-- The webhook handler core of the bridge, applied to the parse result of the
request body (`none` = malformed JSON → 500).  The `message` part runs first:
authorization, then slash-command dispatch or free-text forwarding (an
exception escaping `handleCommand` is caught by the surrounding `try` → 500).
An unauthorized message returns early, skipping any `callback_query` part.
The `callback_query` part re-checks authorization, acknowledges, and serves
`resume:<sid>` buttons (whose dispatch may also throw → 500). -/
def processUpdate (cfg : Config) (panes : List Pane) (execErr : Option (List Char))
    (escOk : Bool) (u : Option TgUpdate) (st : BridgeState) :
    BridgeState × List Effect × WebhookResp :=
  match u with
  | none => (st, [], WebhookResp.err500)
  | some u =>
    match u.message with
    | some (chatId, text) =>
      if ¬ isAuthorized cfg chatId then
        (st, [Effect.sendMessage chatId (Reply.notAuthorized chatId)], WebhookResp.ok200)
      else
        let afterMsg : BridgeState × List Effect × Option DispatchErr :=
          if text.head? = some '/' then
            let (w, rest) := splitCmd text
            handleCommand cfg panes execErr escOk chatId (toLowerL w) rest st
          else if ¬ (jsTrim text).isEmpty then
            match handleMessage cfg panes execErr chatId text st with
            | (st, evs) => (st, evs, none)
          else (st, [], none)
        match afterMsg with
        | (st, evs, some _) => (st, evs, WebhookResp.err500)
        | (st, evs, none) =>
          match u.callback with
          | some (cbChat, data, cbId) =>
            if ¬ isAuthorized cfg cbChat then
              (st, evs ++ [Effect.answerCallback cbId true], WebhookResp.ok200)
            else
              let evs := evs ++ [Effect.answerCallback cbId false]
              if "resume:".data.isPrefixOf data then
                let sid := data.drop 7
                match weztermSendText cfg panes execErr ("/resume ".data ++ sid) st with
                | (st, evs2, none) =>
                  (st, evs ++ evs2 ++ [Effect.sendMessage cbChat (Reply.resumingSession sid)],
                   WebhookResp.ok200)
                | (st, evs2, some _) => (st, evs ++ evs2, WebhookResp.err500)
              else (st, evs, WebhookResp.ok200)
          | none => (st, evs, WebhookResp.ok200)
    | none =>
      match u.callback with
      | some (cbChat, data, cbId) =>
        if ¬ isAuthorized cfg cbChat then
          (st, [Effect.answerCallback cbId true], WebhookResp.ok200)
        else
          let evs := [Effect.answerCallback cbId false]
          if "resume:".data.isPrefixOf data then
            let sid := data.drop 7
            match weztermSendText cfg panes execErr ("/resume ".data ++ sid) st with
            | (st, evs2, none) =>
              (st, evs ++ evs2 ++ [Effect.sendMessage cbChat (Reply.resumingSession sid)],
               WebhookResp.ok200)
            | (st, evs2, some _) => (st, evs ++ evs2, WebhookResp.err500)
          else (st, evs, WebhookResp.ok200)
      | none => (st, [], WebhookResp.ok200)

/-! ## Terminal Dispatcher quoting -/

/-- The quoting step of `weztermSendText`:
`text.replace(/"/g, '""')` — double every double quote. -/
def escapeForCmd : List Char → List Char
  | [] => []
  | c :: rest => if c = '"' then '"' :: '"' :: escapeForCmd rest else c :: escapeForCmd rest

/-- The full command line handed to the shell for the text injection:
`wezterm cli send-text --pane-id ${paneId} --no-paste "${escapedText}"`. -/
def buildSendTextCmd (paneId text : List Char) : List Char :=
  "wezterm cli send-text --pane-id ".data ++ paneId ++ " --no-paste \"".data ++
    escapeForCmd text ++ "\"".data

/-! ## Auxiliary definitions used by the claim statements -/

/-- Whether an effect list contains the "not authorized" chat notice. -/
def hasAuthNotice (evs : List Effect) : Bool :=
  evs.any fun e =>
    match e with
    | Effect.sendMessage _ (Reply.notAuthorized _) => true
    | _ => false

/-- A record the backward scan stops at: declared type `assistant`, a truthy
`message`, and at least one extractable text part. -/
def goodRecord (r : TRecord) : Bool :=
  decide (r.rtype = "assistant".data) && r.message.isSome &&
    !(textPartsOf r.message).isEmpty

/-- Transcript with a trailing assistant record that has no text blocks,
preceded by an assistant record with text. -/
def exLines : List (Option TRecord) :=
  [some ⟨"assistant".data, some (MsgContent.cblocks [⟨"text".data, "hello".data⟩])⟩,
   some ⟨"assistant".data, some (MsgContent.cblocks [])⟩]

/-! ## A grammar for the converter's output

The converter's output should consist of plain characters, the three entity
references `&amp;` `&lt;` `&gt;`, and the tags the converter itself inserts
(`<pre>`, `<code>`, `<b>`, `<i>`, `<u>`, `<s>` and their closings): raw `<`,
`>`, `&` from the input must never survive outside those shapes.  `okOut`
checks this by a left-to-right scan; `Atoms` is the corresponding inductive
grammar used in the proofs. -/

/-- Entity bodies that may follow a `&` in well-formed output. -/
def entBodies : List (List Char) :=
  [['a', 'm', 'p', ';'], ['l', 't', ';'], ['g', 't', ';']]

/-- Tag bodies that may follow a `<` in well-formed output. -/
def tagBodies : List (List Char) :=
  [['p', 'r', 'e', '>'], ['/', 'p', 'r', 'e', '>'],
   ['c', 'o', 'd', 'e', '>'], ['/', 'c', 'o', 'd', 'e', '>'],
   ['b', '>'], ['/', 'b', '>'], ['i', '>'], ['/', 'i', '>'],
   ['u', '>'], ['/', 'u', '>'], ['s', '>'], ['/', 's', '>']]

/-- First member of `ps` that is a prefix of `s`. -/
def firstP : List (List Char) → List Char → Option (List Char)
  | [], _ => none
  | p :: ps, s => if p.isPrefixOf s then some p else firstP ps s

/-- Scanner for well-formed converter output (fuelled): a `<` must start one
of the converter's tags, a `&` one of the three entity references, and a raw
`>` may only occur inside a tag. -/
def okOutF : Nat → List Char → Bool
  | 0, s => s.isEmpty
  | _ + 1, [] => true
  | f + 1, c :: rest =>
    if c = '<' then
      match firstP tagBodies rest with
      | some b => okOutF f (rest.drop b.length)
      | none => false
    else if c = '>' then false
    else if c = '&' then
      match firstP entBodies rest with
      | some e => okOutF f (rest.drop e.length)
      | none => false
    else okOutF f rest

/-- Well-formedness of converter output (entry point). -/
def okOut (s : List Char) : Bool := okOutF (s.length + 1) s

/-- The inductive grammar matching `okOut`: a well-formed string is a chain of
plain characters (anything but `&<>`), entity references and converter tags. -/
inductive Atoms : List Char → Prop where
  | nil : Atoms []
  | plain {c : Char} {t : List Char} :
      c ≠ '&' → c ≠ '<' → c ≠ '>' → Atoms t → Atoms (c :: t)
  | ent {e t : List Char} : e ∈ entBodies → Atoms t → Atoms ('&' :: (e ++ t))
  | tag {b t : List Char} : b ∈ tagBodies → Atoms t → Atoms ('<' :: (b ++ t))

/-- Characters that occur in no entity body and no tag body; cutting a
well-formed string at such a character always falls on an atom boundary. -/
def boundaryChar (c : Char) : Prop :=
  (∀ e ∈ entBodies, c ∉ e) ∧ (∀ b ∈ tagBodies, c ∉ b)

instance : DecidablePred boundaryChar := fun _ =>
  inferInstanceAs (Decidable (_ ∧ _))

/-! ## Helper lemmas about pane resolution -/

/-- `findClaudePaneId` only reads and writes the pane-selection fields, so
setting the pending/typing marks commutes with it. -/
theorem findClaudePaneId_set_marks (cfg : Config) (panes : List Pane) (st : BridgeState)
    (p : Option Nat) (t : Option (List Char)) :
    findClaudePaneId cfg panes { st with pendingFile := p, typing := t } =
      ((findClaudePaneId cfg panes st).1,
        { (findClaudePaneId cfg panes st).2 with pendingFile := p, typing := t }) := by
  cases h : st.selectedPaneId with
  | none => simp [findClaudePaneId, h]
  | some q =>
    cases hex : paneExists panes q with
    | true => simp [findClaudePaneId, h, hex]
    | false => simp [findClaudePaneId, h, hex]

/-- Once `findClaudePaneId` resolves a pane, re-running it on the resulting
state resolves the same pane without further mutation. -/
theorem findClaudePaneId_idem (cfg : Config) (panes : List Pane) (st st1 : BridgeState)
    (pid : List Char) (h : findClaudePaneId cfg panes st = (some pid, st1)) :
    findClaudePaneId cfg panes st1 = (some pid, st1) := by
  cases hs : st.selectedPaneId with
  | none =>
    simp only [findClaudePaneId, hs] at h
    rw [Prod.mk.injEq] at h
    obtain ⟨h1, h2⟩ := h
    subst h2
    simp [findClaudePaneId, hs, h1]
  | some p =>
    cases hex : paneExists panes p with
    | true =>
      simp only [findClaudePaneId, hs, hex, if_true] at h
      rw [Prod.mk.injEq] at h
      obtain ⟨h1, h2⟩ := h
      subst h2
      rw [Option.some.injEq] at h1
      subst h1
      simp [findClaudePaneId, hs, hex]
    | false =>
      simp only [findClaudePaneId, hs, hex, Bool.false_eq_true, if_false] at h
      rw [Prod.mk.injEq] at h
      obtain ⟨h1, h2⟩ := h
      subst h2
      simp [findClaudePaneId, h1]

/-! ## Claims -/

/-- C4: when a selected pane id is persisted but absent from the fresh pane
listing and no environment override is set, `findClaudePaneId` returns `none`
and clears both the in-memory selection and the persisted pane-id file. -/
theorem findClaudePaneId_stale_clears (cfg : Config) (panes : List Pane)
    (st : BridgeState) (pid : List Char)
    (hsel : st.selectedPaneId = some pid)
    (habs : paneExists panes pid = false)
    (henv : cfg.weztermPaneIdEnv = none) :
    findClaudePaneId cfg panes st =
      (none, { st with selectedPaneId := none, paneIdFile := none }) := by
  unfold findClaudePaneId
  simp [hsel, habs, henv]

/-- Witness for C4 at a concrete stale state. -/
theorem findClaudePaneId_stale_clears_witness :
    findClaudePaneId ⟨[], none⟩ []
        ⟨some ['9'], some ['9'], none, none, false, none⟩ =
      (none, ⟨none, none, none, none, false, none⟩) :=
  findClaudePaneId_stale_clears ⟨[], none⟩ []
    ⟨some ['9'], some ['9'], none, none, false, none⟩ ['9'] rfl (by decide) rfl

/-- C8: `/setpane` with an id absent from the fresh listing leaves the
selection (in-memory and persisted) unchanged and replies with the not-found
message; the selection is persisted exactly when the id is present. -/
theorem handleCommand_setpane_validates (cfg : Config) (panes : List Pane)
    (execErr : Option (List Char)) (escOk : Bool) (chatId args : List Char)
    (st : BridgeState) (hne : (jsTrim args).isEmpty = false) :
    (panes.any (fun p => p.pane_id = jsTrim args) = false →
      handleCommand cfg panes execErr escOk chatId "/setpane".data args st =
        ({ st with chatIdFile := some chatId },
         [Effect.sendMessage chatId (Reply.paneNotFound (jsTrim args))], none))
    ∧ (panes.any (fun p => p.pane_id = jsTrim args) = true →
      handleCommand cfg panes execErr escOk chatId "/setpane".data args st =
        ({ st with chatIdFile := some chatId, selectedPaneId := some (jsTrim args), paneIdFile := some (jsTrim args) },
         [Effect.sendMessage chatId
            (Reply.paneSet (jsTrim args) (paneTitleOf panes (jsTrim args)))], none)) := by
  constructor
  · intro habs
    unfold handleCommand
    simp [hne, habs]
  · intro hpres
    unfold handleCommand
    simp [hne, hpres]

/-- Witness for C8: `/setpane 4` while only pane 3 exists is rejected and
leaves the previous selection in place. -/
theorem handleCommand_setpane_validates_witness :
    handleCommand ⟨[['1']], none⟩ [⟨['3'], ['s','h']⟩] none true ['1'] "/setpane".data ['4']
        ⟨some ['3'], some ['3'], none, none, false, none⟩ =
      (⟨some ['3'], some ['3'], some ['1'], none, false, none⟩,
       [Effect.sendMessage ['1'] (Reply.paneNotFound ['4'])], none) :=
  (handleCommand_setpane_validates ⟨[['1']], none⟩ [⟨['3'], ['s','h']⟩] none true ['1'] ['4']
    ⟨some ['3'], some ['3'], none, none, false, none⟩ (by decide)).1 (by decide)

/-- C9: a `/hook` POST with a parseable body while the mute flag is on
responds `{ok:true, muted:true}`, stops only the typing interval, and emits no
outbound send at all. -/
theorem handleHookRequest_muted (htmlOk plainOk : Bool) (b : HookBody)
    (st : BridgeState) (hm : st.isMuted = true) :
    handleHookRequest htmlOk plainOk (some b) st =
      ({ st with typing := none }, [], HookResp.okMuted) := by
  unfold handleHookRequest
  simp [hm]

/-- Witness for C9 at a concrete muted state. -/
theorem handleHookRequest_muted_witness :
    handleHookRequest true true (some ⟨some ['h'], some ['c'], some ['s']⟩)
        ⟨none, none, some ['1'], none, true, some ['1']⟩ =
      (⟨none, none, some ['1'], none, true, none⟩, [], HookResp.okMuted) :=
  handleHookRequest_muted true true ⟨some ['h'], some ['c'], some ['s']⟩
    ⟨none, none, some ['1'], none, true, some ['1']⟩ rfl

/-- C10: the Terminal Dispatcher's quoting step only doubles double quotes —
the string embedded between the quotes of the shell invocation is the payload
with each `"` replaced by `""` and every other character (backticks, dollar
signs, backslashes, newlines included) passed through unchanged. -/
theorem buildSendTextCmd_quoting (paneId text : List Char) :
    buildSendTextCmd paneId text =
      "wezterm cli send-text --pane-id ".data ++ paneId ++ " --no-paste \"".data ++
        text.flatMap (fun c => if c = '"' then ['"', '"'] else [c]) ++ "\"".data := by
  have he : escapeForCmd text = text.flatMap (fun c => if c = '"' then ['"', '"'] else [c]) := by
    induction text with
    | nil => rfl
    | cons c rest ih => by_cases h : c = '"' <;> simp [escapeForCmd, h, ih]
  unfold buildSendTextCmd
  rw [he]

/-- C5: a free-text message with a resolved pane and no denylisted prefix
marks the pending file and starts the typing loop, then dispatches text and
carriage return; when the dispatch throws, the handler stops the typing loop,
clears the pending marker and reports the error to the chat. -/
theorem handleMessageV1_pending_and_errors (cfg : Config) (panes : List Pane)
    (eMsg : List Char) (now : Nat) (chatId text : List Char) (st st1 : BridgeState)
    (pid : List Char)
    (hres : findClaudePaneId cfg panes { st with chatIdFile := some chatId } = (some pid, st1))
    (hnb : startsWithBlocked (toLowerL text) = false) :
    (handleMessageV1 cfg panes none now chatId text st =
      ({ st1 with pendingFile := some now, typing := some chatId },
       [Effect.sendChatAction chatId, Effect.termSendText pid text,
        Effect.termSendEnter pid]))
    ∧ (handleMessageV1 cfg panes (some eMsg) now chatId text st =
      ({ st1 with pendingFile := none, typing := none },
       [Effect.sendChatAction chatId, Effect.termSendText pid text,
        Effect.sendMessage chatId (Reply.errorReply (DispatchErr.execFailed eMsg))])) := by
  have hidem := findClaudePaneId_idem cfg panes _ _ _ hres
  have hmarks := findClaudePaneId_set_marks cfg panes st1 (some now) (some chatId)
  rw [hidem] at hmarks
  constructor <;>
  · simp [handleMessageV1, weztermSendTextV1, hres, hmarks, hnb]

/-- Witness for C5 at a concrete resolved state (both the successful dispatch
and the throwing dispatch). -/
theorem handleMessageV1_pending_and_errors_witness :
    (handleMessageV1 ⟨[['1']], none⟩ [⟨['3'], ['t']⟩] none 5 ['1'] ['h', 'i']
        ⟨some ['3'], some ['3'], none, none, false, none⟩ =
      (⟨some ['3'], some ['3'], some ['1'], some 5, false, some ['1']⟩,
       [Effect.sendChatAction ['1'], Effect.termSendText ['3'] ['h', 'i'],
        Effect.termSendEnter ['3']]))
    ∧ (handleMessageV1 ⟨[['1']], none⟩ [⟨['3'], ['t']⟩] (some ['b', 'o', 'o', 'm']) 5 ['1']
        ['h', 'i'] ⟨some ['3'], some ['3'], none, none, false, none⟩ =
      (⟨some ['3'], some ['3'], some ['1'], none, false, none⟩,
       [Effect.sendChatAction ['1'], Effect.termSendText ['3'] ['h', 'i'],
        Effect.sendMessage ['1']
          (Reply.errorReply (DispatchErr.execFailed ['b', 'o', 'o', 'm']))])) :=
  handleMessageV1_pending_and_errors ⟨[['1']], none⟩ [⟨['3'], ['t']⟩] ['b', 'o', 'o', 'm'] 5
    ['1'] ['h', 'i'] ⟨some ['3'], some ['3'], none, none, false, none⟩
    ⟨some ['3'], some ['3'], some ['1'], none, false, none⟩ ['3'] (by decide) (by decide)

/-- C1 (amended): an unauthorized `message` event — including every chat id
when the allow-list is empty — gets the fixed "not authorized" notice carrying
the caller's chat id, with no state mutation and nothing dispatched to the
terminal; an unauthorized `callback_query` event gets a fixed "not authorized"
callback alert that does *not* carry the chat id, likewise without mutation. -/
theorem processUpdate_unauthorized (cfg : Config) (panes : List Pane)
    (execErr : Option (List Char)) (escOk : Bool) (st : BridgeState)
    (chatId text data cbId : List Char)
    (h : cfg.allowedChatIds.isEmpty = true ∨ isAuthorized cfg chatId = false) :
    (processUpdate cfg panes execErr escOk (some ⟨some (chatId, text), none⟩) st =
      (st, [Effect.sendMessage chatId (Reply.notAuthorized chatId)], WebhookResp.ok200))
    ∧ (processUpdate cfg panes execErr escOk (some ⟨none, some (chatId, data, cbId)⟩) st =
      (st, [Effect.answerCallback cbId true], WebhookResp.ok200)) := by
  have hf : isAuthorized cfg chatId = false := by
    rcases h with h | h
    · simp [isAuthorized, h]
    · exact h
  constructor <;> simp [processUpdate, hf]

/-- Witness for C1 at an empty allow-list and a concrete chat id. -/
theorem processUpdate_unauthorized_witness :
    (processUpdate ⟨[], none⟩ [] none true (some ⟨some (['5'], ['h', 'i']), none⟩)
        ⟨none, none, none, none, false, none⟩ =
      (⟨none, none, none, none, false, none⟩,
       [Effect.sendMessage ['5'] (Reply.notAuthorized ['5'])], WebhookResp.ok200))
    ∧ (processUpdate ⟨[], none⟩ [] none true (some ⟨none, some (['5'], ['d'], ['7'])⟩)
        ⟨none, none, none, none, false, none⟩ =
      (⟨none, none, none, none, false, none⟩,
       [Effect.answerCallback ['7'] true], WebhookResp.ok200)) :=
  processUpdate_unauthorized ⟨[], none⟩ [] none true ⟨none, none, none, none, false, none⟩
    ['5'] ['h', 'i'] ['d'] ['7'] (Or.inl rfl)

/-- Counterexample for C1 as stated: an unauthorized `callback_query` chat
event is answered with the fixed alert that does not contain the caller's chat
id — no "not authorized" notice with the chat id is sent. -/
theorem processUpdate_callback_no_chatid_notice :
    processUpdate ⟨[['1']], none⟩ [] none true (some ⟨none, some (['2'], ['x'], ['7'])⟩)
        ⟨none, none, none, none, false, none⟩ =
      (⟨none, none, none, none, false, none⟩,
       [Effect.answerCallback ['7'] true], WebhookResp.ok200)
    ∧ hasAuthNotice [Effect.answerCallback ['7'] true] = false := by
  constructor
  · decide
  · decide

/-- C2 counterexample: an input consisting of the literal five characters
`&lt;` (outside any code span) is double-escaped to `&amp;lt;`; the sequence
`&lt;` does not survive unchanged anywhere in the output. -/
theorem markdownToTelegramHtml_double_escape_counterexample :
    markdownToTelegramHtml "&lt;".data = "&amp;lt;".data
    ∧ containsSub "&lt;".data (markdownToTelegramHtml "&lt;".data) = false := by
  constructor
  · decide
  · decide

/-- C2 (amended): the converter escapes every `&` outside code spans,
including the `&` of an already-escaped entity — `&lt;` becomes `&amp;lt;` —
so running it on its own output mutates entity references further (it is not
idempotent). -/
theorem markdownToTelegramHtml_reescapes_entities :
    markdownToTelegramHtml "&lt;".data = "&amp;lt;".data
    ∧ markdownToTelegramHtml (markdownToTelegramHtml "a<b".data) ≠
        markdownToTelegramHtml "a<b".data := by
  constructor
  · decide
  · decide

/-- C6 counterexample: user text containing the literal `<<<CODEBLOCK0>>>`
followed by a real fenced block.  The restore step replaces the *user's*
(escaped) text with the protected block, and the real placeholder survives,
HTML-escaped, in the output — the placeholders are not collision-free, and
restoration does not reinstate exactly the protected fragments. -/
theorem markdownToTelegramHtml_placeholder_collision :
    markdownToTelegramHtml "<<<CODEBLOCK0>>>```x<y```".data =
      "<pre><code>&lt;y</code></pre>&lt;&lt;&lt;CODEBLOCK0&gt;&gt;&gt;".data
    ∧ containsSub (escCbPH 0)
        (markdownToTelegramHtml "<<<CODEBLOCK0>>>```x<y```".data) = true := by
  constructor
  · decide
  · decide

/-- C6 (amended): placeholders are restored by first-occurrence string
replacement of their HTML-escaped spelling, which collides with user text that
literally contains `<<<CODEBLOCK0>>>`: the code block lands at the position of
the user's text and the escaped placeholder is left at the block's position. -/
theorem markdownToTelegramHtml_restore_first_occurrence :
    markdownToTelegramHtml "<<<CODEBLOCK0>>>```x<y```".data =
      wrapCodeBlock "<y".data ++ escCbPH 0 := by
  decide

/-- C7 counterexample: a fenced code block whose content is `$&` (which
contains the markup-special `&`) is not rendered with exactly those characters
HTML-escaped: the `$&` JS replacement pattern in the restore step splices the
matched placeholder into the block instead. -/
theorem markdownToTelegramHtml_dollar_breaks_codeblock :
    markdownToTelegramHtml "```$&```".data =
      "<pre><code>&lt;&lt;&lt;CODEBLOCK0&gt;&gt;&gt;amp;</code></pre>".data
    ∧ markdownToTelegramHtml "```$&```".data ≠
        "<pre><code>$&amp;</code></pre>".data := by
  constructor
  · decide
  · decide

/-- The backward scan returns the joined text parts of the first parsed record
(scanning the reversed lines) satisfying `goodRecord`. -/
theorem extractRevScan_characterization (l : List (Option TRecord)) :
    extractRevScan l =
      ((l.filterMap id).find? goodRecord).map (fun r => joinNL (textPartsOf r.message)) := by
  induction l with
  | nil => rfl
  | cons o rest ih =>
    cases o with
    | none => simpa [extractRevScan] using ih
    | some r =>
      by_cases h1 : r.rtype = "assistant".data ∧ r.message.isSome
      · by_cases h2 : (textPartsOf r.message).isEmpty
        · have hg : goodRecord r = false := by
            simp [goodRecord, h1.1, h2]
          simp [extractRevScan, h1, h2, hg, ih]
        · have hg : goodRecord r = true := by
            simp [goodRecord, h1.1, h1.2, h2]
          simp [extractRevScan, h1, h2, hg]
      · have hg : goodRecord r = false := by
          rcases not_and_or.mp h1 with h | h
          · simp [goodRecord, h]
          · simp [goodRecord, h]
        simp [extractRevScan, h1, hg, ih]

/-- C3 counterexample: the record nearest the end has role `assistant` but no
text blocks; the claim prescribes returning that record's (empty) text, but
the code skips it and returns the text of an earlier assistant record. -/
theorem extractLastAssistantMessage_skips_textless :
    extractLastAssistantMessage exLines = some "hello".data
    ∧ specExtractLastAssistantMessage exLines = some []
    ∧ (some "hello".data : Option (List Char)) ≠ some [] := by
  refine ⟨by decide, by decide, by decide⟩

/-- C3 (amended): scanning from the last line backwards, the extractor returns
the newline-joined text parts of the *nearest-the-end* record whose type is
`assistant`, whose `message` is present, and which yields at least one text
part; assistant records with no extractable text are skipped like malformed
lines, and `none` is returned when no such record exists. -/
theorem extractLastAssistantMessage_characterization (lines : List (Option TRecord)) :
    extractLastAssistantMessage lines =
      ((lines.reverse.filterMap id).find? goodRecord).map
        (fun r => joinNL (textPartsOf r.message)) :=
  extractRevScan_characterization lines.reverse

/-! ## Basic facts about prefixes and `splitFirst` -/

theorem isPrefixOf_append_self (p t : List Char) : p.isPrefixOf (p ++ t) = true := by
  induction p with
  | nil => simp [List.isPrefixOf]
  | cons a as ih => simp [List.isPrefixOf, ih]

theorem isPrefixOf_eq_append {p s : List Char} (h : p.isPrefixOf s = true) :
    s = p ++ s.drop p.length := by
  induction p generalizing s with
  | nil => simp
  | cons a as ih =>
    cases s with
    | nil => simp [List.isPrefixOf] at h
    | cons b bs =>
      simp only [List.isPrefixOf, Bool.and_eq_true, beq_iff_eq] at h
      obtain ⟨h1, h2⟩ := h
      subst h1
      simpa using ih h2

theorem splitFirst_eq {pat s pre post : List Char}
    (h : splitFirst pat s = some (pre, post)) : s = pre ++ pat ++ post := by
  induction s generalizing pre with
  | nil =>
    by_cases hp : pat.isEmpty
    · simp only [splitFirst, hp, if_true] at h
      rw [Option.some.injEq, Prod.mk.injEq] at h
      obtain ⟨h1, h2⟩ := h
      subst h1
      subst h2
      simpa using (List.isEmpty_iff.mp hp).symm
    · simp [splitFirst, hp] at h
  | cons c rest ih =>
    by_cases hp : pat.isPrefixOf (c :: rest) = true
    · simp only [splitFirst, hp, if_true, Option.some.injEq, Prod.mk.injEq] at h
      obtain ⟨h1, h2⟩ := h
      subst h1
      subst h2
      simpa using isPrefixOf_eq_append hp
    · simp only [splitFirst, hp, if_false] at h
      cases hr : splitFirst pat rest with
      | none => rw [hr] at h; exact absurd h (by simp)
      | some pq =>
        obtain ⟨pre', post'⟩ := pq
        rw [hr] at h
        simp at h
        obtain ⟨h1, h2⟩ := h
        subst h1
        subst h2
        simpa using ih hr

/-! ## Basic facts about the output grammar -/

theorem atoms_append {u v : List Char} (hu : Atoms u) (hv : Atoms v) :
    Atoms (u ++ v) := by
  induction hu with
  | nil => simpa using hv
  | plain h1 h2 h3 _ ih => exact Atoms.plain h1 h2 h3 ih
  | ent he _ ih =>
    rw [List.cons_append, List.append_assoc]
    exact Atoms.ent he ih
  | tag hb _ ih =>
    rw [List.cons_append, List.append_assoc]
    exact Atoms.tag hb ih

theorem atoms_cons_inv {c : Char} {t : List Char} (h : Atoms (c :: t))
    (h1 : c ≠ '&') (h2 : c ≠ '<') : Atoms t := by
  cases h with
  | plain _ _ _ ht => exact ht
  | ent he ht => exact absurd rfl h1
  | tag hb ht => exact absurd rfl h2

theorem atoms_amp_inv {r : List Char} (h : Atoms ('&' :: r)) :
    ∃ e t, e ∈ entBodies ∧ r = e ++ t ∧ Atoms t := by
  cases h with
  | plain h1 _ _ _ => exact absurd rfl h1
  | ent he ht => exact ⟨_, _, he, rfl, ht⟩

theorem atoms_lt_inv {r : List Char} (h : Atoms ('<' :: r)) :
    ∃ b t, b ∈ tagBodies ∧ r = b ++ t ∧ Atoms t := by
  cases h with
  | plain _ h2 _ _ => exact absurd rfl h2
  | tag hb ht => exact ⟨_, _, hb, rfl, ht⟩

theorem atoms_plainlist_append {l r : List Char}
    (hl : ∀ c ∈ l, c ≠ '&' ∧ c ≠ '<' ∧ c ≠ '>') (hr : Atoms r) : Atoms (l ++ r) := by
  induction l with
  | nil => simpa using hr
  | cons c cs ih =>
    obtain ⟨h1, h2, h3⟩ := hl c (by simp)
    exact Atoms.plain h1 h2 h3 (ih (fun x hx => hl x (by simp [hx])))

theorem atoms_plainlist_elim {l r : List Char}
    (hl : ∀ c ∈ l, c ≠ '&' ∧ c ≠ '<') (h : Atoms (l ++ r)) : Atoms r := by
  induction l with
  | nil => simpa using h
  | cons c cs ih =>
    obtain ⟨h1, h2⟩ := hl c (by simp)
    exact ih (fun x hx => hl x (by simp [hx]))
      (atoms_cons_inv (by simpa using h) h1 h2)

theorem isPrefixOf_append_cases {b1 b2 x y : List Char} (h : b1 ++ x = b2 ++ y) :
    b1.isPrefixOf b2 = true ∨ b2.isPrefixOf b1 = true := by
  induction b1 generalizing b2 with
  | nil => left; simp [List.isPrefixOf]
  | cons a as ih =>
    cases b2 with
    | nil => right; simp [List.isPrefixOf]
    | cons b bs =>
      injection h with h1 h2
      subst h1
      rcases ih h2 with h | h
      · left; simp [List.isPrefixOf, h]
      · right; simp [List.isPrefixOf, h]

theorem bodies_incomparable :
    ∀ b1 ∈ entBodies ++ tagBodies, ∀ b2 ∈ entBodies ++ tagBodies,
      b1.isPrefixOf b2 = true → b1 = b2 := by decide

theorem atoms_unappend {l r : List Char} (hl : Atoms l) (h : Atoms (l ++ r)) :
    Atoms r := by
  induction hl with
  | nil => simpa using h
  | plain h1 h2 h3 _ ih => exact ih (atoms_cons_inv (by simpa using h) h1 h2)
  | @ent e t he _ ih =>
    have h' : Atoms ('&' :: (e ++ (t ++ r))) := by simpa using h
    obtain ⟨e', t', he', heq, ht'⟩ := atoms_amp_inv h'
    have hee : e = e' := by
      rcases isPrefixOf_append_cases heq with hp | hp
      · exact bodies_incomparable e (List.mem_append_left _ he) e'
          (List.mem_append_left _ he') hp
      · exact (bodies_incomparable e' (List.mem_append_left _ he') e
          (List.mem_append_left _ he) hp).symm
    subst hee
    have := List.append_cancel_left heq
    exact ih (this ▸ ht')
  | @tag b t hb _ ih =>
    have h' : Atoms ('<' :: (b ++ (t ++ r))) := by simpa using h
    obtain ⟨b', t', hb', heq, ht'⟩ := atoms_lt_inv h'
    have hbb : b = b' := by
      rcases isPrefixOf_append_cases heq with hp | hp
      · exact bodies_incomparable b (List.mem_append_right _ hb) b'
          (List.mem_append_right _ hb') hp
      · exact (bodies_incomparable b' (List.mem_append_right _ hb') b
          (List.mem_append_right _ hb) hp).symm
    subst hbb
    have := List.append_cancel_left heq
    exact ih (this ▸ ht')

theorem okOutF_plain {c : Char} (h1 : c ≠ '<') (h2 : c ≠ '>') (h3 : c ≠ '&')
    (f : Nat) (t : List Char) : okOutF (f + 1) (c :: t) = okOutF f t := by
  simp [okOutF, h1, h2, h3]

theorem okOutF_ent {e : List Char} (he : e ∈ entBodies) (f : Nat) (t : List Char) :
    okOutF (f + 1) ('&' :: (e ++ t)) = okOutF f t := by
  simp only [entBodies, List.mem_cons, List.not_mem_nil, or_false] at he
  rcases he with rfl | rfl | rfl <;> simp [okOutF, firstP, List.isPrefixOf]

theorem okOutF_tag {b : List Char} (hb : b ∈ tagBodies) (f : Nat) (t : List Char) :
    okOutF (f + 1) ('<' :: (b ++ t)) = okOutF f t := by
  simp only [tagBodies, List.mem_cons, List.not_mem_nil, or_false] at hb
  rcases hb with rfl | rfl | rfl | rfl | rfl | rfl | rfl | rfl | rfl | rfl | rfl | rfl <;>
    simp [okOutF, firstP, List.isPrefixOf]

theorem okOutF_of_atoms : ∀ f {s : List Char}, s.length < f → Atoms s → okOutF f s = true := by
  intro f
  induction f with
  | zero => intro s hlen _; omega
  | succ f ih =>
    intro s hlen h
    cases h with
    | nil => rfl
    | plain h1 h2 h3 ht =>
      rw [okOutF_plain h2 h3 h1]
      refine ih ?_ ht
      simp only [List.length_cons] at hlen
      omega
    | @ent e t he ht =>
      rw [okOutF_ent he]
      refine ih ?_ ht
      simp only [List.length_cons, List.length_append] at hlen
      omega
    | @tag b t hb ht =>
      rw [okOutF_tag hb]
      refine ih ?_ ht
      simp only [List.length_cons, List.length_append] at hlen
      omega

theorem okOut_of_atoms {s : List Char} (h : Atoms s) : okOut s = true :=
  okOutF_of_atoms (s.length + 1) (by omega) h

theorem append_cons_split_of_not_mem {a2 b e t : List Char} {c : Char}
    (h : a2 ++ c :: b = e ++ t) (hc : c ∉ e) :
    ∃ a3, a2 = e ++ a3 ∧ t = a3 ++ c :: b := by
  induction e generalizing a2 with
  | nil => exact ⟨a2, by simp, by simpa using h.symm⟩
  | cons x e' ih =>
    cases a2 with
    | nil =>
      simp only [List.nil_append, List.cons_append] at h
      injection h with h1 h2
      exact absurd (show c ∈ x :: e' by rw [h1]; exact List.mem_cons_self x e') hc
    | cons y a2' =>
      simp only [List.cons_append] at h
      injection h with h1 h2
      subst h1
      obtain ⟨a3, h3, h4⟩ := ih h2 (fun hm => hc (List.mem_cons_of_mem _ hm))
      exact ⟨a3, by simp [h3], h4⟩

theorem atoms_split_at {c : Char} (hc : boundaryChar c) :
    ∀ {u v : List Char}, Atoms (u ++ c :: v) → Atoms u ∧ Atoms (c :: v) := by
  suffices H : ∀ s, Atoms s → ∀ u v, s = u ++ c :: v → Atoms u ∧ Atoms (c :: v) by
    intro u v h
    exact H _ h u v rfl
  intro s hs
  induction hs with
  | nil =>
    intro u v h
    exact absurd h.symm (by simp)
  | @plain c0 t h1 h2 h3 ht ih =>
    intro u v h
    cases u with
    | nil =>
      simp only [List.nil_append] at h
      exact ⟨Atoms.nil, h ▸ Atoms.plain h1 h2 h3 ht⟩
    | cons y u' =>
      rw [List.cons_append] at h
      injection h with hy hrest
      subst hy
      obtain ⟨hu, hv⟩ := ih u' v hrest
      exact ⟨Atoms.plain h1 h2 h3 hu, hv⟩
  | @ent e t he ht ih =>
    intro u v h
    cases u with
    | nil =>
      simp only [List.nil_append] at h
      exact ⟨Atoms.nil, h ▸ Atoms.ent he ht⟩
    | cons y u' =>
      rw [List.cons_append] at h
      injection h with hy hrest
      subst hy
      obtain ⟨a3, h3, h4⟩ := append_cons_split_of_not_mem hrest.symm (hc.1 e he)
      obtain ⟨hu, hv⟩ := ih a3 v h4
      subst h3
      exact ⟨Atoms.ent he hu, hv⟩
  | @tag b t hb ht ih =>
    intro u v h
    cases u with
    | nil =>
      simp only [List.nil_append] at h
      exact ⟨Atoms.nil, h ▸ Atoms.tag hb ht⟩
    | cons y u' =>
      rw [List.cons_append] at h
      injection h with hy hrest
      subst hy
      obtain ⟨a3, h3, h4⟩ := append_cons_split_of_not_mem hrest.symm (hc.2 b hb)
      obtain ⟨hu, hv⟩ := ih a3 v h4
      subst h3
      exact ⟨Atoms.tag hb hu, hv⟩

/-! ## `escapeHtml` produces well-formed output -/

theorem replaceAllChar_append (c : Char) (rep u v : List Char) :
    replaceAllChar c rep (u ++ v) = replaceAllChar c rep u ++ replaceAllChar c rep v := by
  simp [replaceAllChar]

theorem escapeHtml_append (u v : List Char) :
    escapeHtml (u ++ v) = escapeHtml u ++ escapeHtml v := by
  simp [escapeHtml, replaceAllChar_append]

theorem escapeHtml_cons (x : Char) (s : List Char) :
    escapeHtml (x :: s) =
      (if x = '&' then ['&', 'a', 'm', 'p', ';']
       else if x = '<' then ['&', 'l', 't', ';']
       else if x = '>' then ['&', 'g', 't', ';']
       else [x]) ++ escapeHtml s := by
  by_cases h1 : x = '&'
  · subst h1; simp [escapeHtml, replaceAllChar]
  · by_cases h2 : x = '<'
    · subst h2; simp [escapeHtml, replaceAllChar]
    · by_cases h3 : x = '>'
      · subst h3; simp [escapeHtml, replaceAllChar]
      · simp [escapeHtml, replaceAllChar, h1, h2, h3]

theorem atoms_escapeHtml (s : List Char) : Atoms (escapeHtml s) := by
  induction s with
  | nil => exact Atoms.nil
  | cons x s ih =>
    rw [escapeHtml_cons]
    by_cases h1 : x = '&'
    · subst h1
      simp only [if_pos rfl]
      exact Atoms.ent (by simp [entBodies]) ih
    · by_cases h2 : x = '<'
      · subst h2
        simp only [h1, if_neg, if_pos rfl, if_false]
        exact Atoms.ent (by simp [entBodies]) ih
      · by_cases h3 : x = '>'
        · subst h3
          simp only [h1, h2, if_neg, if_pos rfl, if_false]
          exact Atoms.ent (by simp [entBodies]) ih
        · simp only [h1, h2, h3, if_false]
          exact Atoms.plain h1 h2 h3 ih

theorem escapeHtml_plain {l : List Char}
    (h : ∀ c ∈ l, c ≠ '&' ∧ c ≠ '<' ∧ c ≠ '>') : escapeHtml l = l := by
  induction l with
  | nil => rfl
  | cons x s ih =>
    obtain ⟨h1, h2, h3⟩ := h x (by simp)
    rw [escapeHtml_cons]
    simp only [h1, h2, h3, if_false]
    rw [ih (fun c hc => h c (by simp [hc]))]
    rfl

theorem escapeHtml_no_dollar {l : List Char} (h : '$' ∉ l) : '$' ∉ escapeHtml l := by
  induction l with
  | nil => simp [escapeHtml, replaceAllChar]
  | cons x s ih =>
    rw [escapeHtml_cons]
    intro hmem
    rcases List.mem_append.mp hmem with hm | hm
    · have hx : x ≠ '$' := fun hx => h (hx ▸ List.mem_cons_self x s)
      by_cases h1 : x = '&'
      · subst h1; simp at hm
      · by_cases h2 : x = '<'
        · subst h2; simp at hm
        · by_cases h3 : x = '>'
          · subst h3; simp at hm
          · simp only [h1, h2, h3, if_false] at hm
            simp at hm
            exact hx hm.symm
    · exact ih (fun hc => h (List.mem_cons_of_mem _ hc)) hm

theorem natDigitsF_plain :
    ∀ f n, ∀ c ∈ natDigitsF f n, c ≠ '&' ∧ c ≠ '<' ∧ c ≠ '>' ∧ c ≠ '$' ∧ c ≠ bq := by
  intro f
  induction f with
  | zero => intro n c hc; simp [natDigitsF] at hc
  | succ f ih =>
    intro n c hc
    simp only [natDigitsF] at hc
    by_cases h : n < 10
    · rw [if_pos h] at hc
      simp only [List.mem_singleton] at hc
      subst hc
      interval_cases n <;> simp [Nat.digitChar, bq]
    · rw [if_neg h] at hc
      rcases List.mem_append.mp hc with hm | hm
      · exact ih _ c hm
      · simp only [List.mem_singleton] at hm
        subst hm
        have hlt : n % 10 < 10 := Nat.mod_lt _ (by omega)
        set m := n % 10 with hm
        clear_value m
        interval_cases m <;> simp [Nat.digitChar, bq]

theorem natDigits_plain (n : Nat) :
    ∀ c ∈ natDigits n, c ≠ '&' ∧ c ≠ '<' ∧ c ≠ '>' :=
  fun c hc =>
    ⟨(natDigitsF_plain _ n c hc).1, (natDigitsF_plain _ n c hc).2.1,
     (natDigitsF_plain _ n c hc).2.2.1⟩

theorem escCbPH_eq (i : Nat) : escCbPH i = escapeHtml (cbPH i) := by
  unfold escCbPH cbPH
  rw [escapeHtml_append, escapeHtml_append, escapeHtml_plain (natDigits_plain i)]
  have h1 : escapeHtml "<<<CODEBLOCK".data = "&lt;&lt;&lt;CODEBLOCK".data := by decide
  have h2 : escapeHtml ">>>".data = "&gt;&gt;&gt;".data := by decide
  rw [h1, h2]

theorem escIcPH_eq (i : Nat) : escIcPH i = escapeHtml (icPH i) := by
  unfold escIcPH icPH
  rw [escapeHtml_append, escapeHtml_append, escapeHtml_plain (natDigits_plain i)]
  have h1 : escapeHtml "<<<INLINECODE".data = "&lt;&lt;&lt;INLINECODE".data := by decide
  have h2 : escapeHtml ">>>".data = "&gt;&gt;&gt;".data := by decide
  rw [h1, h2]

theorem atoms_escCbPH (i : Nat) : Atoms (escCbPH i) := by
  rw [escCbPH_eq]
  exact atoms_escapeHtml _

theorem atoms_escIcPH (i : Nat) : Atoms (escIcPH i) := by
  rw [escIcPH_eq]
  exact atoms_escapeHtml _

/-! ## Emphasis passes preserve well-formed output -/

theorem entBodies_plain : ∀ e ∈ entBodies, ∀ c ∈ e, c ≠ '&' ∧ c ≠ '<' ∧ c ≠ '>' := by
  decide

theorem tagBodies_ne_amp_lt : ∀ b ∈ tagBodies, ∀ c ∈ b, c ≠ '&' ∧ c ≠ '<' := by
  decide

theorem entBodies_no_dollar : ∀ e ∈ entBodies, '$' ∉ e := by decide

theorem tagBodies_no_dollar : ∀ b ∈ tagBodies, '$' ∉ b := by decide

theorem emphPassF_nil (delim ob cb : List Char) (f : Nat) :
    emphPassF delim ob cb f [] = [] := by
  cases f <;> rfl

theorem lazyFind_some {delim l t after : List Char}
    (h : lazyFind delim l = some (t, after)) : l = t ++ delim ++ after ∧ t ≠ [] := by
  induction l generalizing t with
  | nil => simp [lazyFind] at h
  | cons c rest ih =>
    simp only [lazyFind] at h
    by_cases hlt : isLineTerm c = true
    · rw [if_pos hlt] at h; simp at h
    · rw [if_neg hlt] at h
      by_cases hp : delim.isPrefixOf rest = true
      · rw [if_pos hp] at h
        rw [Option.some.injEq, Prod.mk.injEq] at h
        obtain ⟨h1, h2⟩ := h
        subst h1
        subst h2
        refine ⟨?_, by simp⟩
        simpa using isPrefixOf_eq_append hp
      · rw [if_neg hp] at h
        cases hr : lazyFind delim rest with
        | none => rw [hr] at h; simp at h
        | some pq =>
          obtain ⟨t', after'⟩ := pq
          rw [hr] at h
          simp only [Option.some.injEq, Prod.mk.injEq] at h
          obtain ⟨h1, h2⟩ := h
          subst h1
          subst h2
          obtain ⟨he, hne⟩ := ih hr
          exact ⟨by simp [he], by simp⟩

theorem tryPaired_some {delim s t after : List Char}
    (h : tryPaired delim s = some (t, after)) :
    s = delim ++ t ++ delim ++ after ∧ t ≠ [] := by
  unfold tryPaired at h
  by_cases hp : delim.isPrefixOf s = true
  · rw [if_pos hp] at h
    obtain ⟨he, hne⟩ := lazyFind_some h
    refine ⟨?_, hne⟩
    rw [isPrefixOf_eq_append hp, he]
    simp [List.append_assoc]
  · rw [if_neg hp] at h
    simp at h

theorem emphPassF_append_nodelim {d0 : Char} {d' ob cb : List Char} :
    ∀ (f : Nat) (u v : List Char), u.length ≤ f → (∀ c ∈ u, c ≠ d0) →
      emphPassF (d0 :: d') ob cb f (u ++ v) =
        u ++ emphPassF (d0 :: d') ob cb (f - u.length) v := by
  intro f u
  induction u generalizing f with
  | nil => intro v _ _; simp
  | cons c u' ih =>
    intro v hlen hmem
    cases f with
    | zero => simp at hlen
    | succ f =>
      have hc : c ≠ d0 := hmem c (by simp)
      have hbeq : (d0 == c) = false := by simp [Ne.symm hc]
      have hpre : (d0 :: d').isPrefixOf (c :: (u' ++ v)) = false := by
        simp [List.isPrefixOf, hbeq]
      have htp : tryPaired (d0 :: d') (c :: (u' ++ v)) = none := by
        simp [tryPaired, hpre]
      have hstep : emphPassF (d0 :: d') ob cb (f + 1) (c :: (u' ++ v)) =
          c :: emphPassF (d0 :: d') ob cb f (u' ++ v) := by
        simp only [emphPassF, htp]
      have hlen' : u'.length ≤ f := by
        simp only [List.length_cons] at hlen
        omega
      rw [List.cons_append, hstep, ih f v hlen' (fun x hx => hmem x (by simp [hx]))]
      simp [List.length_cons, Nat.succ_sub_succ]

theorem emphPassF_atoms {d0 : Char} {d' ob cb : List Char}
    (hbd : boundaryChar d0) (h0 : d0 ≠ '&' ∧ d0 ≠ '<' ∧ d0 ≠ '>')
    (hd' : ∀ c ∈ d', c ≠ '&' ∧ c ≠ '<' ∧ c ≠ '>')
    (hob : Atoms ob) (hcb : Atoms cb) :
    ∀ f s, s.length < f → Atoms s → Atoms (emphPassF (d0 :: d') ob cb f s) := by
  intro f
  induction f using Nat.strong_induction_on with
  | _ f ih =>
    intro s hlen hs
    cases f with
    | zero => omega
    | succ f =>
      cases s with
      | nil => rw [emphPassF_nil]; exact Atoms.nil
      | cons c rest =>
        cases htp : tryPaired (d0 :: d') (c :: rest) with
        | some pq =>
          obtain ⟨t, after⟩ := pq
          obtain ⟨heq, hne⟩ := tryPaired_some htp
          have hdel : ∀ x ∈ d0 :: d', x ≠ '&' ∧ x ≠ '<' ∧ x ≠ '>' := by
            intro x hx
            rcases List.mem_cons.mp hx with rfl | hx
            · exact h0
            · exact hd' x hx
          have heq' : c :: rest = (d0 :: d') ++ (t ++ d0 :: (d' ++ after)) := by
            rw [heq]; simp [List.append_assoc]
          have hs2 : Atoms (t ++ d0 :: (d' ++ after)) :=
            atoms_plainlist_elim (fun x hx => ⟨(hdel x hx).1, (hdel x hx).2.1⟩)
              (heq' ▸ hs)
          obtain ⟨ht, hrest2⟩ := atoms_split_at hbd hs2
          have hafter : Atoms after :=
            atoms_plainlist_elim (l := d0 :: d')
              (fun x hx => ⟨(hdel x hx).1, (hdel x hx).2.1⟩)
              (by simpa using hrest2)
          have hout : emphPassF (d0 :: d') ob cb (f + 1) (c :: rest) =
              ob ++ (t ++ (cb ++ emphPassF (d0 :: d') ob cb f after)) := by
            simp only [emphPassF, htp]
            simp [List.append_assoc]
          rw [hout]
          have hlen2 : after.length < f := by
            have hL := congrArg List.length heq
            have htl : 0 < t.length := List.length_pos.mpr hne
            simp only [List.length_cons, List.length_append] at hL hlen
            omega
          exact atoms_append hob
            (atoms_append ht (atoms_append hcb (ih f (by omega) after hlen2 hafter)))
        | none =>
          have hout : emphPassF (d0 :: d') ob cb (f + 1) (c :: rest) =
              c :: emphPassF (d0 :: d') ob cb f rest := by
            simp only [emphPassF, htp]
          rw [hout]
          cases hs with
          | plain h1 h2 h3 ht =>
            refine Atoms.plain h1 h2 h3 (ih f (by omega) rest ?_ ht)
            simp only [List.length_cons] at hlen
            omega
          | @ent e t2 he ht =>
            have hnd : ∀ x ∈ e, x ≠ d0 := fun x hx hxd => hbd.1 e he (hxd ▸ hx)
            have hle : e.length ≤ f := by
              simp only [List.length_cons, List.length_append] at hlen
              omega
            rw [emphPassF_append_nodelim f e t2 hle hnd]
            refine Atoms.ent he (ih (f - e.length) (by omega) t2 ?_ ht)
            simp only [List.length_cons, List.length_append] at hlen
            omega
          | @tag b t2 hb ht =>
            have hnd : ∀ x ∈ b, x ≠ d0 := fun x hx hxd => hbd.2 b hb (hxd ▸ hx)
            have hle : b.length ≤ f := by
              simp only [List.length_cons, List.length_append] at hlen
              omega
            rw [emphPassF_append_nodelim f b t2 hle hnd]
            refine Atoms.tag hb (ih (f - b.length) (by omega) t2 ?_ ht)
            simp only [List.length_cons, List.length_append] at hlen
            omega

/-! ## Placeholder restoration preserves well-formed output -/

theorem expandDollar_cons_nondollar {m p q : List Char} {c : Char} (hc : c ≠ '$')
    (l : List Char) : expandDollar m p q (c :: l) = c :: expandDollar m p q l := by
  cases l with
  | nil => rfl
  | cons c2 r => simp [expandDollar, hc]

theorem expandDollar_nodollar_append {m p q : List Char} :
    ∀ e t, '$' ∉ e → expandDollar m p q (e ++ t) = e ++ expandDollar m p q t := by
  intro e
  induction e with
  | nil => intro t _; simp
  | cons c e' ih =>
    intro t he
    have hc : c ≠ '$' := fun h => he (by simp [h])
    rw [List.cons_append, expandDollar_cons_nondollar hc,
      ih t (fun hm => he (List.mem_cons_of_mem _ hm))]
    rfl

theorem expandDollar_no_dollar {m p q l : List Char} (h : '$' ∉ l) :
    expandDollar m p q l = l := by
  have h2 := expandDollar_nodollar_append (m := m) (p := p) (q := q) l [] h
  simpa [expandDollar] using h2

theorem expandDollar_atoms {m p q : List Char} (hm : Atoms m) (hp : Atoms p)
    (hq : Atoms q) : ∀ rep, Atoms rep → Atoms (expandDollar m p q rep) := by
  suffices H : ∀ n rep, rep.length ≤ n → Atoms rep → Atoms (expandDollar m p q rep) by
    intro rep h
    exact H rep.length rep le_rfl h
  intro n
  induction n with
  | zero =>
    intro rep hlen h
    have hnil : rep = [] := List.length_eq_zero.mp (Nat.le_zero.mp hlen)
    subst hnil
    exact Atoms.nil
  | succ n ih =>
    intro rep hlen h
    cases h with
    | nil => exact Atoms.nil
    | @plain c t h1 h2 h3 ht =>
      by_cases hc : c = '$'
      · subst hc
        cases t with
        | nil => exact Atoms.plain h1 h2 h3 Atoms.nil
        | cons c2 r =>
          by_cases h2d : c2 = '$'
          · subst h2d
            have hr : Atoms r := atoms_cons_inv ht (by decide) (by decide)
            have hstep : expandDollar m p q ('$' :: '$' :: r) =
                '$' :: expandDollar m p q r := by simp [expandDollar]
            rw [hstep]
            refine Atoms.plain (by decide) (by decide) (by decide) (ih r ?_ hr)
            simp only [List.length_cons] at hlen
            omega
          · by_cases h2a : c2 = '&'
            · subst h2a
              obtain ⟨e, t2, he, heq, ht2⟩ := atoms_amp_inv ht
              subst heq
              have hstep : expandDollar m p q ('$' :: '&' :: (e ++ t2)) =
                  m ++ expandDollar m p q (e ++ t2) := by simp [expandDollar]
              rw [hstep, expandDollar_nodollar_append e t2 (entBodies_no_dollar e he)]
              refine atoms_append hm (atoms_plainlist_append (entBodies_plain e he)
                (ih t2 ?_ ht2))
              simp only [List.length_cons, List.length_append] at hlen
              omega
            · by_cases h2b : c2 = bq
              · subst h2b
                have hr : Atoms r := atoms_cons_inv ht (by decide) (by decide)
                have hstep : expandDollar m p q ('$' :: bq :: r) =
                    p ++ expandDollar m p q r := by simp [expandDollar, h2d, h2a]
                rw [hstep]
                refine atoms_append hp (ih r ?_ hr)
                simp only [List.length_cons] at hlen
                omega
              · by_cases h2c : c2 = sq
                · subst h2c
                  have hr : Atoms r := atoms_cons_inv ht (by decide) (by decide)
                  have hstep : expandDollar m p q ('$' :: sq :: r) =
                      q ++ expandDollar m p q r := by simp [expandDollar, h2d, h2a, h2b]
                  rw [hstep]
                  refine atoms_append hq (ih r ?_ hr)
                  simp only [List.length_cons] at hlen
                  omega
                · have hstep : expandDollar m p q ('$' :: c2 :: r) =
                      '$' :: expandDollar m p q (c2 :: r) := by
                    simp [expandDollar, h2d, h2a, h2b, h2c]
                  rw [hstep]
                  refine Atoms.plain (by decide) (by decide) (by decide)
                    (ih (c2 :: r) ?_ ht)
                  simp only [List.length_cons] at hlen ⊢
                  omega
      · rw [expandDollar_cons_nondollar hc]
        refine Atoms.plain h1 h2 h3 (ih t ?_ ht)
        simp only [List.length_cons] at hlen
        omega
    | @ent e t2 he ht =>
      rw [expandDollar_cons_nondollar (by decide),
        expandDollar_nodollar_append e t2 (entBodies_no_dollar e he)]
      refine Atoms.ent he (ih t2 ?_ ht)
      simp only [List.length_cons, List.length_append] at hlen
      omega
    | @tag b t2 hb ht =>
      rw [expandDollar_cons_nondollar (by decide),
        expandDollar_nodollar_append b t2 (tagBodies_no_dollar b hb)]
      refine Atoms.tag hb (ih t2 ?_ ht)
      simp only [List.length_cons, List.length_append] at hlen
      omega

theorem jsReplaceFirst_atoms {patTail rep s : List Char}
    (hpatAtoms : Atoms ('&' :: patTail)) (hrep : Atoms rep) (hs : Atoms s) :
    Atoms (jsReplaceFirst ('&' :: patTail) rep s) := by
  unfold jsReplaceFirst
  cases hSplit : splitFirst ('&' :: patTail) s with
  | none => exact hs
  | some pq =>
    obtain ⟨pre, post⟩ := pq
    have heq := splitFirst_eq hSplit
    have hs' : Atoms (pre ++ '&' :: (patTail ++ post)) := by
      rw [heq] at hs
      simpa [List.append_assoc] using hs
    obtain ⟨hpre, hrest⟩ := atoms_split_at (by decide) hs'
    have hpost : Atoms post := atoms_unappend hpatAtoms (by simpa using hrest)
    exact atoms_append
      (atoms_append hpre (expandDollar_atoms hpatAtoms hpre hpost rep hrep)) hpost

theorem restoreList_atoms {ph : Nat → List Char}
    (hph : ∀ i, ∃ tl, ph i = '&' :: tl ∧ Atoms (ph i)) :
    ∀ blocks i s, (∀ b ∈ blocks, Atoms b) → Atoms s →
      Atoms (restoreList ph i blocks s) := by
  intro blocks
  induction blocks with
  | nil => intro i s _ hs; exact hs
  | cons b bs ih =>
    intro i s hb hs
    simp only [restoreList]
    apply ih (i + 1)
    · intro x hx
      exact hb x (List.mem_cons_of_mem _ hx)
    · obtain ⟨tl, h1, h2⟩ := hph i
      rw [h1]
      exact jsReplaceFirst_atoms (h1 ▸ h2) (hb b (List.mem_cons_self _ _)) hs

theorem atoms_wrapCodeBlock (code : List Char) : Atoms (wrapCodeBlock code) := by
  unfold wrapCodeBlock
  refine atoms_append (atoms_append ?_ (atoms_escapeHtml _)) ?_
  · show Atoms ('<' :: (['p', 'r', 'e', '>'] ++
      ('<' :: (['c', 'o', 'd', 'e', '>'] ++ ([] : List Char)))))
    exact Atoms.tag (by decide) (Atoms.tag (by decide) Atoms.nil)
  · show Atoms ('<' :: (['/', 'c', 'o', 'd', 'e', '>'] ++
      ('<' :: (['/', 'p', 'r', 'e', '>'] ++ ([] : List Char)))))
    exact Atoms.tag (by decide) (Atoms.tag (by decide) Atoms.nil)

theorem atoms_wrapInlineCode (code : List Char) : Atoms (wrapInlineCode code) := by
  unfold wrapInlineCode
  refine atoms_append (atoms_append ?_ (atoms_escapeHtml _)) ?_
  · show Atoms ('<' :: (['c', 'o', 'd', 'e', '>'] ++ ([] : List Char)))
    exact Atoms.tag (by decide) Atoms.nil
  · show Atoms ('<' :: (['/', 'c', 'o', 'd', 'e', '>'] ++ ([] : List Char)))
    exact Atoms.tag (by decide) Atoms.nil

theorem scanCodeBlocksF_blocks_atoms :
    ∀ f idx s, ∀ b ∈ (scanCodeBlocksF f idx s).2, Atoms b := by
  intro f
  induction f with
  | zero => intro idx s b hb; simp [scanCodeBlocksF] at hb
  | succ f ih =>
    intro idx s b hb
    cases s with
    | nil => simp [scanCodeBlocksF] at hb
    | cons c rest =>
      simp only [scanCodeBlocksF] at hb
      cases htm : tryCodeBlockMatch (c :: rest) with
      | some pq =>
        obtain ⟨code, after⟩ := pq
        rw [htm] at hb
        simp only at hb
        rcases List.mem_cons.mp hb with rfl | hb
        · exact atoms_wrapCodeBlock code
        · exact ih (idx + 1) after b hb
      | none =>
        rw [htm] at hb
        simp only at hb
        exact ih idx rest b hb

theorem scanInlineF_blocks_atoms :
    ∀ f idx s, ∀ b ∈ (scanInlineF f idx s).2, Atoms b := by
  intro f
  induction f with
  | zero => intro idx s b hb; simp [scanInlineF] at hb
  | succ f ih =>
    intro idx s b hb
    cases s with
    | nil => simp [scanInlineF] at hb
    | cons c rest =>
      simp only [scanInlineF] at hb
      cases htm : tryInlineMatch (c :: rest) with
      | some pq =>
        obtain ⟨code, after⟩ := pq
        rw [htm] at hb
        simp only at hb
        rcases List.mem_cons.mp hb with rfl | hb
        · exact atoms_wrapInlineCode code
        · exact ih (idx + 1) after b hb
      | none =>
        rw [htm] at hb
        simp only at hb
        exact ih idx rest b hb

theorem markdownToTelegramHtml_okOut (text : List Char) :
    okOut (markdownToTelegramHtml text) = true := by
  apply okOut_of_atoms
  have hb1 : Atoms "<b>".data := by
    show Atoms ('<' :: (['b', '>'] ++ ([] : List Char)))
    exact Atoms.tag (by decide) Atoms.nil
  have hb2 : Atoms "</b>".data := by
    show Atoms ('<' :: (['/', 'b', '>'] ++ ([] : List Char)))
    exact Atoms.tag (by decide) Atoms.nil
  have hi1 : Atoms "<i>".data := by
    show Atoms ('<' :: (['i', '>'] ++ ([] : List Char)))
    exact Atoms.tag (by decide) Atoms.nil
  have hi2 : Atoms "</i>".data := by
    show Atoms ('<' :: (['/', 'i', '>'] ++ ([] : List Char)))
    exact Atoms.tag (by decide) Atoms.nil
  have hu1 : Atoms "<u>".data := by
    show Atoms ('<' :: (['u', '>'] ++ ([] : List Char)))
    exact Atoms.tag (by decide) Atoms.nil
  have hu2 : Atoms "</u>".data := by
    show Atoms ('<' :: (['/', 'u', '>'] ++ ([] : List Char)))
    exact Atoms.tag (by decide) Atoms.nil
  have hs1 : Atoms "<s>".data := by
    show Atoms ('<' :: (['s', '>'] ++ ([] : List Char)))
    exact Atoms.tag (by decide) Atoms.nil
  have hs2 : Atoms "</s>".data := by
    show Atoms ('<' :: (['/', 's', '>'] ++ ([] : List Char)))
    exact Atoms.tag (by decide) Atoms.nil
  simp only [markdownToTelegramHtml, scanInline, scanCodeBlocks, emphPass]
  refine restoreList_atoms (fun i => ⟨_, rfl, atoms_escIcPH i⟩) _ _ _
    (fun b hb => scanInlineF_blocks_atoms _ _ _ b hb) ?_
  refine restoreList_atoms (fun i => ⟨_, rfl, atoms_escCbPH i⟩) _ _ _
    (fun b hb => scanCodeBlocksF_blocks_atoms _ _ _ b hb) ?_
  refine emphPassF_atoms (by decide) (by decide) (by decide) hs1 hs2 _ _
    (Nat.lt_succ_self _) ?_
  refine emphPassF_atoms (by decide) (by decide) (by decide) hu1 hu2 _ _
    (Nat.lt_succ_self _) ?_
  refine emphPassF_atoms (by decide) (by decide) (by decide) hi1 hi2 _ _
    (Nat.lt_succ_self _) ?_
  refine emphPassF_atoms (by decide) (by decide) (by decide) hb1 hb2 _ _
    (Nat.lt_succ_self _) ?_
  exact atoms_escapeHtml _

/-! ## The fenced-code-block round trip -/

theorem scanCodeBlocksF_nil (f i : Nat) : scanCodeBlocksF f i [] = ([], []) := by
  cases f <;> rfl

theorem scanCodeBlocksF_match {f idx : Nat} {s code after : List Char}
    (htm : tryCodeBlockMatch s = some (code, after)) :
    scanCodeBlocksF (f + 1) idx s =
      (cbPH idx ++ (scanCodeBlocksF f (idx + 1) after).1,
       wrapCodeBlock code :: (scanCodeBlocksF f (idx + 1) after).2) := by
  cases s with
  | nil => simp [tryCodeBlockMatch] at htm
  | cons c rest => simp only [scanCodeBlocksF, htm]

theorem splitFirst_head (p v : List Char) (hne : p ≠ []) :
    splitFirst p (p ++ v) = some ([], v) := by
  cases p with
  | nil => simp at hne
  | cons p0 p' =>
    rw [show (p0 :: p') ++ v = p0 :: (p' ++ v) from rfl]
    simp only [splitFirst]
    rw [if_pos (show (p0 :: p').isPrefixOf (p0 :: (p' ++ v)) = true from
      isPrefixOf_append_self (p0 :: p') v)]
    simp [List.drop_left]

theorem splitFirst_of_not_mem_head (p0 : Char) (p' v : List Char) :
    ∀ u, p0 ∉ u → splitFirst (p0 :: p') (u ++ ((p0 :: p') ++ v)) = some (u, v) := by
  intro u
  induction u with
  | nil =>
    intro _
    rw [List.nil_append]
    exact splitFirst_head (p0 :: p') v (by simp)
  | cons x u' ih =>
    intro hu
    have hx : p0 ≠ x := fun h => hu (by simp [h])
    have hbeq : (p0 == x) = false := by simp [hx]
    rw [List.cons_append]
    simp only [splitFirst]
    rw [if_neg (by simp [List.isPrefixOf, hbeq]), ih (fun hm => hu (List.mem_cons_of_mem _ hm))]

theorem head_not_of_dropWhile_self {p : Char → Bool} {x : Char} {l : List Char}
    (h : (x :: l).dropWhile p = x :: l) : p x = false := by
  by_cases hp : p x = true
  · rw [List.dropWhile_cons, if_pos hp] at h
    have hL := congrArg List.length h
    have hle : (List.dropWhile p l).length ≤ l.length := (List.dropWhile_sublist _).length_le
    simp only [List.length_cons] at hL
    omega
  · simpa using hp

theorem jsTrim_cons_space {x : Char} {l : List Char} (h : isJsSpace x = true) :
    jsTrim (x :: l) = jsTrim l := by
  unfold jsTrim
  rw [List.dropWhile_cons, if_pos h]

theorem mem_jsTrim {x : Char} {l : List Char} (h : x ∈ jsTrim l) : x ∈ l := by
  unfold jsTrim at h
  have h1 := List.mem_reverse.mp h
  have h2 := (List.dropWhile_sublist _).subset h1
  have h3 := List.mem_reverse.mp h2
  exact (List.dropWhile_sublist _).subset h3

theorem tryCodeBlockMatch_fence {c : List Char} (hbq : bq ∉ c)
    (hw : c.dropWhile isWordChar = c) :
    ∃ code, tryCodeBlockMatch ("```".data ++ c ++ "```".data) = some (code, []) ∧
      jsTrim code = jsTrim c := by
  have hshape : "```".data ++ c ++ "```".data = bq :: bq :: bq :: (c ++ "```".data) := rfl
  rw [hshape]
  have ht1 : (c ++ "```".data).dropWhile isWordChar = c ++ "```".data := by
    cases c with
    | nil => decide
    | cons x c' =>
      have hx := head_not_of_dropWhile_self hw
      rw [List.cons_append, List.dropWhile_cons, if_neg (by simp [hx])]
  simp only [tryCodeBlockMatch]
  rw [if_pos (by simp), ht1]
  cases c with
  | nil =>
    refine ⟨[], ?_, rfl⟩
    decide
  | cons x c' =>
    by_cases hnl : x = '\n'
    · subst hnl
      rw [List.cons_append]
      simp only [if_pos rfl]
      refine ⟨c', ?_, (jsTrim_cons_space (by decide)).symm⟩
      have hsplit := splitFirst_of_not_mem_head bq [bq, bq] []
        c' (fun hm => hbq (List.mem_cons_of_mem _ hm))
      simpa using hsplit
    · rw [List.cons_append]
      simp only [if_neg hnl]
      refine ⟨x :: c', ?_, rfl⟩
      rw [← List.cons_append]
      have hsplit := splitFirst_of_not_mem_head bq [bq, bq] []
        (x :: c') hbq
      simpa using hsplit

theorem scanCodeBlocks_fence {c : List Char} (hbq : bq ∉ c)
    (hw : c.dropWhile isWordChar = c) :
    ∃ code, scanCodeBlocks ("```".data ++ c ++ "```".data) =
      (cbPH 0, [wrapCodeBlock code]) ∧ jsTrim code = jsTrim c := by
  obtain ⟨code, htm, hjt⟩ := tryCodeBlockMatch_fence hbq hw
  refine ⟨code, ?_, hjt⟩
  unfold scanCodeBlocks
  rw [scanCodeBlocksF_match htm, scanCodeBlocksF_nil]
  simp

theorem markdownToTelegramHtml_fence {c : List Char}
    (hbq : bq ∉ c) (hdollar : '$' ∉ c) (hw : c.dropWhile isWordChar = c) :
    markdownToTelegramHtml ("```".data ++ c ++ "```".data) =
      "<pre><code>".data ++ escapeHtml (jsTrim c) ++ "</code></pre>".data := by
  obtain ⟨code, hscan, hjt⟩ := scanCodeBlocks_fence hbq hw
  have hwrap : wrapCodeBlock code =
      "<pre><code>".data ++ escapeHtml (jsTrim c) ++ "</code></pre>".data := by
    unfold wrapCodeBlock
    rw [hjt]
  have h1 : scanInline (cbPH 0) = (cbPH 0, []) := by decide
  have h2 : escapeHtml (cbPH 0) = escCbPH 0 := (escCbPH_eq 0).symm
  have h3 : emphPass "**".data "<b>".data "</b>".data (escCbPH 0) = escCbPH 0 := by decide
  have h4 : emphPass "*".data "<i>".data "</i>".data (escCbPH 0) = escCbPH 0 := by decide
  have h5 : emphPass "__".data "<u>".data "</u>".data (escCbPH 0) = escCbPH 0 := by decide
  have h6 : emphPass "~~".data "<s>".data "</s>".data (escCbPH 0) = escCbPH 0 := by decide
  have hnd : '$' ∉ wrapCodeBlock code := by
    unfold wrapCodeBlock
    intro hm
    rcases List.mem_append.mp hm with hm | hm
    · rcases List.mem_append.mp hm with hm | hm
      · revert hm; decide
      · rw [hjt] at hm
        exact escapeHtml_no_dollar (fun hz => hdollar (mem_jsTrim hz)) hm
    · revert hm; decide
  have h7 : splitFirst (escCbPH 0) (escCbPH 0) = some ([], []) := by decide
  simp only [markdownToTelegramHtml, hscan, h1, h2, h3, h4, h5, h6]
  simp only [restoreList, jsReplaceFirst, h7]
  rw [expandDollar_no_dollar hnd]
  simp [hwrap]

/-- C7 (amended): (1) for every input, each `<`, `>`, `&` in the converter's
output occurs only as part of one of the converter's own marker tags or as an
entity reference `&amp;`/`&lt;`/`&gt;` — raw input angle brackets and
ampersands outside code spans never survive unescaped; (2) a fenced code block
whose content contains no backtick and no dollar sign (and no leading word
characters, which would be taken as the language tag) renders as a
preformatted block whose interior is exactly the trimmed content HTML-escaped,
with no emphasis conversion applied inside it.  (The dollar-sign restriction
is forced by the counterexample: `$`-patterns in the restore step corrupt the
block.) -/
theorem markdownToTelegramHtml_escaping :
    (∀ text, okOut (markdownToTelegramHtml text) = true)
    ∧ (∀ c, bq ∉ c → '$' ∉ c → c.dropWhile isWordChar = c →
        markdownToTelegramHtml ("```".data ++ c ++ "```".data) =
          "<pre><code>".data ++ escapeHtml (jsTrim c) ++ "</code></pre>".data) :=
  ⟨markdownToTelegramHtml_okOut, fun _ h1 h2 h3 => markdownToTelegramHtml_fence h1 h2 h3⟩

/-- Witness for C7 at concrete inputs: a mixed-markup text passes the output
check, and the code block `x<y` renders with `<` escaped. -/
theorem markdownToTelegramHtml_escaping_witness :
    okOut (markdownToTelegramHtml "a<b & *c* `d>` ~~e~~".data) = true
    ∧ markdownToTelegramHtml ("```".data ++ ['\n', 'x', '<', 'y', '\n'] ++ "```".data) =
        "<pre><code>".data ++ escapeHtml (jsTrim ['\n', 'x', '<', 'y', '\n']) ++
          "</code></pre>".data :=
  ⟨markdownToTelegramHtml_escaping.1 _,
   markdownToTelegramHtml_escaping.2 ['\n', 'x', '<', 'y', '\n']
     (by decide) (by decide) (by decide)⟩

end TgBridge
